import Mathlib

/-!
Verification of `src/lse/_lse.c`: an in-place hybrid quicksort/insertion sort
(`rc_sort`) and two numerically stable log-sum-exp reductions (`rc_logsumexp`,
`rc_logsumexp_pair`).

Doubles are embedded as an idealized IEEE value type `D α`: NaN, the two
infinities, or a finite value drawn from a linear ordered field `α` (rounding
is not modelled).  Exponential and logarithm on finite values are abstract
parameters `rexp rlog : α → α`; the IEEE special cases (`exp(-inf) = 0`,
`log` of nonpositive values, NaN propagation) are handled by the `D`-level
operations themselves, mirroring libm.

Array reads and writes are bounds-checked and return `Option`: a `none`
result models the undefined behaviour of an out-of-bounds access in C.
Loops are driven by explicit fuel; every call site supplies fuel that the
accompanying lemmas show is never exhausted on the paths the C code can
actually take, so `none` results correspond exactly to out-of-bounds
accesses.
-/

namespace LSE

open scoped List

variable {α : Type} [LinearOrderedField α]

/-- Idealized IEEE double over an ordered field `α`. -/
inductive D (α : Type) where
  | nan : D α
  | negInf : D α
  | posInf : D α
  | fin : α → D α
deriving DecidableEq

/-- IEEE `<` on doubles: any comparison involving NaN is false. -/
def D.lt : D α → D α → Bool
  | D.nan, _ => false
  | _, D.nan => false
  | D.negInf, D.negInf => false
  | D.negInf, _ => true
  | _, D.negInf => false
  | D.fin x, D.fin y => decide (x < y)
  | D.fin _, D.posInf => true
  | D.posInf, _ => false

/-- IEEE `<=` on doubles: any comparison involving NaN is false. -/
def D.le : D α → D α → Bool
  | D.nan, _ => false
  | _, D.nan => false
  | D.negInf, _ => true
  | _, D.negInf => false
  | D.fin x, D.fin y => decide (x ≤ y)
  | D.fin _, D.posInf => true
  | D.posInf, D.posInf => true
  | D.posInf, D.fin _ => false

/-- IEEE test `-INFINITY == x` (false for NaN). -/
def D.isNegInf : D α → Bool
  | D.negInf => true
  | _ => false

/-- IEEE addition (no rounding/overflow modelled on finite values). -/
def D.add : D α → D α → D α
  | D.nan, _ => D.nan
  | _, D.nan => D.nan
  | D.negInf, D.posInf => D.nan
  | D.posInf, D.negInf => D.nan
  | D.negInf, _ => D.negInf
  | _, D.negInf => D.negInf
  | D.posInf, _ => D.posInf
  | _, D.posInf => D.posInf
  | D.fin x, D.fin y => D.fin (x + y)

/-- IEEE subtraction (no rounding/overflow modelled on finite values). -/
def D.sub : D α → D α → D α
  | D.nan, _ => D.nan
  | _, D.nan => D.nan
  | D.negInf, D.negInf => D.nan
  | D.posInf, D.posInf => D.nan
  | D.negInf, _ => D.negInf
  | D.posInf, _ => D.posInf
  | D.fin _, D.negInf => D.posInf
  | D.fin _, D.posInf => D.negInf
  | D.fin x, D.fin y => D.fin (x - y)

/-- libm `exp`: `exp(-inf) = 0`, `exp(+inf) = +inf`, NaN propagates; on finite
values it is the abstract `rexp`. -/
def D.exp (rexp : α → α) : D α → D α
  | D.nan => D.nan
  | D.negInf => D.fin 0
  | D.posInf => D.posInf
  | D.fin x => D.fin (rexp x)

/-- libm `log`: `log(0) = -inf`, `log` of a negative value is NaN,
`log(+inf) = +inf`, NaN propagates; on positive finite values it is the
abstract `rlog`. -/
def D.log (rlog : α → α) : D α → D α
  | D.nan => D.nan
  | D.negInf => D.nan
  | D.posInf => D.posInf
  | D.fin x => if x = 0 then D.negInf else if 0 < x then D.fin (rlog x) else D.nan

theorem D.lt_irrefl (x : D α) : D.lt x x = false := by
  cases x <;> simp [D.lt]

theorem D.le_of_lt {x y : D α} (h : D.lt x y = true) : D.le x y = true := by
  cases x <;> cases y <;> simp_all [D.lt, D.le] <;> exact h.le

theorem D.not_lt_of_le {x y : D α} (h : D.le x y = true) : D.lt y x = false := by
  cases x <;> cases y <;> simp_all [D.lt, D.le] <;> exact not_lt.mpr h

theorem D.le_total_of_not_lt {x y : D α} (hx : x ≠ D.nan) (hy : y ≠ D.nan)
    (h : D.lt x y = false) : D.le y x = true := by
  cases x <;> cases y <;> simp_all [D.lt, D.le] <;> exact not_lt.mp h

theorem D.le_trans {x y z : D α} (h1 : D.le x y = true) (h2 : D.le y z = true) :
    D.le x z = true := by
  cases x <;> cases y <;> cases z <;> simp_all [D.le] <;> exact h1.trans h2

theorem D.le_antisymm {x y : D α} (h1 : D.le x y = true) (h2 : D.le y x = true) :
    x = y := by
  cases x <;> cases y <;> simp_all [D.le] <;> exact h1.antisymm h2

theorem D.ne_nan_of_le {x y : D α} (h : D.le x y = true) : x ≠ D.nan ∧ y ≠ D.nan := by
  cases x <;> cases y <;> simp_all [D.le]

theorem D.ne_nan_of_lt {x y : D α} (h : D.lt x y = true) : x ≠ D.nan ∧ y ≠ D.nan := by
  cases x <;> cases y <;> simp_all [D.lt]

theorem D.lt_asymm {x y : D α} (h : D.lt x y = true) : D.lt y x = false :=
  D.not_lt_of_le (D.le_of_lt h)

/-! ### Bounds-checked array access

`getI a i` models the C read `a[i]` on an array of length `a.length`;
`setI a i x` models the write `a[i] = x`.  A `none` result is an
out-of-bounds access, i.e. undefined behaviour in the C source. -/

/-- Checked read `a[i]` with a C `int` index. -/
def getI {β : Type} (a : List β) (i : Int) : Option β :=
  if 0 ≤ i then a[i.toNat]? else none

/-- Checked write `a[i] = x` with a C `int` index. -/
def setI {β : Type} (a : List β) (i : Int) (x : β) : Option (List β) :=
  if 0 ≤ i ∧ i < (a.length : Int) then some (a.set i.toNat x) else none

/-- The three-statement swap `swap = a[i]; a[i] = a[j]; a[j] = swap`. -/
def swapI {β : Type} (a : List β) (i j : Int) : Option (List β) := do
  let x ← getI a i
  let y ← getI a j
  let a1 ← setI a i y
  setI a1 j x

theorem getI_eq_some {β : Type} {a : List β} {i : Int} {x : β}
    (h : getI a i = some x) : 0 ≤ i ∧ i < (a.length : Int) ∧ a[i.toNat]? = some x := by
  unfold getI at h
  split at h
  · rename_i h0
    obtain ⟨hlt, _⟩ := List.getElem?_eq_some.mp h
    exact ⟨h0, by omega, h⟩
  · exact absurd h (by simp)

theorem getI_pos {β : Type} {a : List β} {i : Int}
    (h0 : 0 ≤ i) (h1 : i < (a.length : Int)) :
    ∃ x, getI a i = some x := by
  unfold getI
  rw [if_pos h0]
  have hlt : i.toNat < a.length := by omega
  exact ⟨a[i.toNat], List.getElem?_eq_getElem hlt⟩

theorem getI_eq_getElem {β : Type} {a : List β} {i : Int}
    (h0 : 0 ≤ i) (h1 : i.toNat < a.length) :
    getI a i = some (a[i.toNat]) := by
  unfold getI
  rw [if_pos h0]
  exact List.getElem?_eq_getElem h1

theorem getI_mem {β : Type} {a : List β} {i : Int} {x : β}
    (h : getI a i = some x) : x ∈ a := by
  obtain ⟨_, _, h2⟩ := getI_eq_some h
  obtain ⟨hlt, heq⟩ := List.getElem?_eq_some.mp h2
  exact heq ▸ List.getElem_mem hlt

theorem setI_pos {β : Type} {a : List β} {i : Int} {x : β}
    (h0 : 0 ≤ i) (h1 : i < (a.length : Int)) :
    setI a i x = some (a.set i.toNat x) := by
  unfold setI
  rw [if_pos ⟨h0, h1⟩]

theorem setI_length {β : Type} {a b : List β} {i : Int} {x : β}
    (h : setI a i x = some b) : b.length = a.length := by
  unfold setI at h
  split at h
  · cases h; simp
  · exact absurd h (by simp)

theorem setI_some {β : Type} {a b : List β} {i : Int} {x : β}
    (h : setI a i x = some b) :
    0 ≤ i ∧ i < (a.length : Int) ∧ b = a.set i.toNat x := by
  unfold setI at h
  split at h
  · rename_i hc
    exact ⟨hc.1, hc.2, by cases h; rfl⟩
  · exact absurd h (by simp)

theorem getI_set_self {β : Type} {a b : List β} {i : Int} {x : β}
    (h : setI a i x = some b) : getI b i = some x := by
  obtain ⟨h0, h1, rfl⟩ := setI_some h
  rw [getI_eq_getElem h0 (by simp; omega)]
  congr 1
  exact List.getElem_set_self ..

theorem getI_set_other {β : Type} {a b : List β} {i j : Int} {x : β}
    (h : setI a i x = some b) (hne : j ≠ i) : getI b j = getI a j := by
  obtain ⟨h0, h1, rfl⟩ := setI_some h
  unfold getI
  split
  · rename_i hj
    rw [List.getElem?_set_ne]
    omega
  · rfl

theorem cons_set_perm {β : Type} (t : List β) (k : Nat) (h : β) (hk : k < t.length) :
    t[k] :: t.set k h ~ h :: t := by
  induction t generalizing k with
  | nil => simp at hk
  | cons c t ih =>
    cases k with
    | zero => simpa using List.Perm.swap h c t
    | succ k =>
      have hk' : k < t.length := by simpa using hk
      calc t[k] :: c :: t.set k h
          ~ c :: t[k] :: t.set k h := List.Perm.swap ..
        _ ~ c :: h :: t := (ih k hk').cons c
        _ ~ h :: c :: t := List.Perm.swap ..

theorem set_set_swap_perm {β : Type} (a : List β) (m k : Nat)
    (hm : m < a.length) (hk : k < a.length) :
    (a.set m (a[k])).set k (a[m]) ~ a := by
  induction a generalizing m k with
  | nil => simp at hm
  | cons c t ih =>
    cases m with
    | zero =>
      cases k with
      | zero => simp
      | succ k =>
        have hk' : k < t.length := by simpa using hk
        simpa using cons_set_perm t k c hk'
    | succ m =>
      have hm' : m < t.length := by simpa using hm
      cases k with
      | zero =>
        simpa using cons_set_perm t m c hm'
      | succ k =>
        have hk' : k < t.length := by simpa using hk
        simpa using (ih m k hm' hk').cons c

theorem swapI_some {β : Type} {a : List β} {i j : Int}
    (h0 : 0 ≤ i) (h1 : i < (a.length : Int)) (h2 : 0 ≤ j) (h3 : j < (a.length : Int)) :
    ∃ b, swapI a i j = some b ∧
      b = (a.set i.toNat (a[j.toNat])).set j.toNat (a[i.toNat]) := by
  have hi : i.toNat < a.length := by omega
  have hj : j.toNat < a.length := by omega
  unfold swapI
  rw [getI_eq_getElem h0 hi, getI_eq_getElem h2 hj]
  simp only [Option.bind_eq_bind, Option.some_bind]
  rw [setI_pos h0 h1]
  simp only [Option.some_bind]
  rw [setI_pos h2 (by simpa using h3)]
  exact ⟨_, rfl, rfl⟩

theorem swapI_props {β : Type} {a b : List β} {i j : Int}
    (h : swapI a i j = some b) :
    b.length = a.length ∧ b ~ a ∧
    0 ≤ i ∧ i < (a.length : Int) ∧ 0 ≤ j ∧ j < (a.length : Int) ∧
    getI b i = getI a j ∧ getI b j = getI a i ∧
    (∀ k : Int, k ≠ i → k ≠ j → getI b k = getI a k) := by
  unfold swapI at h
  obtain ⟨x, hx, h⟩ := Option.bind_eq_some.mp h
  obtain ⟨y, hy, h⟩ := Option.bind_eq_some.mp h
  obtain ⟨a1, ha1, h⟩ := Option.bind_eq_some.mp h
  obtain ⟨hx0, hx1, hxv⟩ := getI_eq_some hx
  obtain ⟨hy0, hy1, hyv⟩ := getI_eq_some hy
  obtain ⟨hi0, hi1, ha1v⟩ := setI_some ha1
  obtain ⟨hj0, hj1, hbv⟩ := setI_some h
  have hlen : b.length = a.length := by
    subst hbv; subst ha1v; simp
  have hij : i.toNat < a.length := by omega
  have hjj : j.toNat < a.length := by omega
  have hxg : x = a[i.toNat] := by
    have := List.getElem?_eq_getElem hij
    rw [this] at hxv; exact (Option.some_inj.mp hxv).symm
  have hyg : y = a[j.toNat] := by
    have := List.getElem?_eq_getElem hjj
    rw [this] at hyv; exact (Option.some_inj.mp hyv).symm
  refine ⟨hlen, ?_, hx0, hx1, hy0, hy1, ?_, ?_, ?_⟩
  · subst hbv; subst ha1v; subst hxg; subst hyg
    exact set_set_swap_perm a i.toNat j.toNat hij hjj
  · -- getI b i = getI a j
    by_cases hij2 : i = j
    · subst hij2
      rw [getI_set_self h, getI_eq_getElem hy0 hjj, hxg]
    · have : getI b i = getI a1 i := getI_set_other h (by omega)
      rw [this, getI_set_self ha1, getI_eq_getElem hy0 hjj, hyg]
  · rw [getI_set_self h, getI_eq_getElem hx0 hij, hxg]
  · intro k hki hkj
    rw [getI_set_other h hkj, getI_set_other ha1 hki]

/-! ### The sort `rc_sort`

C source (`src/lse/_lse.c`, lines 17-50):

    static void rc_sort(double *array, int L, int R)
    {
        int l, r;
        double swap;
        if(R - L > 25) /* use quicksort */
        {
            l = L - 1;
            r = R;
            for(;;)
            {
                while(array[++l] < array[R]);
                while((array[--r] > array[R]) && (r > l));
                if(l >= r) break;
                swap = array[l];
                array[l] = array[r];
                array[r] = swap;
            }
            swap = array[l];
            array[l] = array[R];
            array[R] = swap;
            rc_sort(array, L, l - 1);
            rc_sort(array, l + 1, R);
        }
        else /* use insertion sort */
        {
            for(l=L+1; l<=R; ++l)
            {
                swap = array[l];
                for(r=l-1; (r >= L) && (swap < array[r]); --r)
                    array[r + 1] = array[r];
                array[r + 1] = swap;
            }
        }
    }

For the scan loops the pivot is the value `array[R]`; the partition loop
never writes at index `R` before its final swap (both swap indices are
`< R`), so reading `array[R]` once per scan is the same as the C re-read.
C's `x > y` on doubles holds exactly when `y < x` (both false on NaN), so
the right scan uses `D.lt piv x`.  Each loop gets fuel `a.length + 1`,
which the lemmas below show is never exhausted: an index either leaves the
array (an out-of-bounds `none`, as in C) or the loop stops first. -/

/-- `while(array[++l] < array[R]);` — `i` is the index being examined
(the already-incremented `l`); returns the value of `l` at loop exit. -/
def scanL (a : List (D α)) (piv : D α) : Nat → Int → Option Int
  | 0, _ => none
  | fuel+1, i => do
      let x ← getI a i
      if D.lt x piv then scanL a piv fuel (i+1) else pure i

/-- `while((array[--r] > array[R]) && (r > l));` — `i` is the index being
examined (the already-decremented `r`); returns the value of `r` at exit. -/
def scanR (a : List (D α)) (piv : D α) (l : Int) : Nat → Int → Option Int
  | 0, _ => none
  | fuel+1, i => do
      let x ← getI a i
      if D.lt piv x then
        (if l < i then scanR a piv l fuel (i-1) else pure i)
      else pure i

/-- The partition `for(;;)` loop: scan, scan, break or swap and repeat.
Returns the final array together with the final value of `l`. -/
def qloop (R : Int) : Nat → List (D α) → Int → Int → Option (List (D α) × Int)
  | 0, _, _, _ => none
  | fuel+1, a, l, r => do
      let piv ← getI a R
      let l2 ← scanL a piv (a.length + 1) (l + 1)
      let r2 ← scanR a piv l2 (a.length + 1) (r - 1)
      if l2 ≥ r2 then pure (a, l2)
      else do
        let a2 ← swapI a l2 r2
        qloop R fuel a2 l2 r2

/-- The partition phase of the quicksort branch: the `for(;;)` loop followed
by the final swap of `array[l]` with the pivot at `array[R]`.  Returns the
partitioned array and the pivot's final index `l`. -/
def partitionStep (a : List (D α)) (L R : Int) : Option (List (D α) × Int) := do
  let pl ← qloop R (a.length + 1) a (L - 1) R
  let a2 ← swapI pl.1 pl.2 R
  pure (a2, pl.2)

/-- Inner insertion-sort loop
`for(r=l-1; (r >= L) && (swap < array[r]); --r) array[r+1] = array[r];`
starting at the examined index `r`; returns the shifted array and the exit
value of `r`. -/
def insInner (L : Int) (sw : D α) : Nat → List (D α) → Int → Option (List (D α) × Int)
  | 0, _, _ => none
  | fuel+1, a, r =>
      if L ≤ r then do
        let x ← getI a r
        if D.lt sw x then do
          let a2 ← setI a (r+1) x
          insInner L sw fuel a2 (r-1)
        else pure (a, r)
      else pure (a, r)

/-- Outer insertion-sort loop `for(l=L+1; l<=R; ++l) { ... }`. -/
def insOuter (L R : Int) : Nat → List (D α) → Int → Option (List (D α))
  | 0, _, _ => none
  | fuel+1, a, l =>
      if l ≤ R then do
        let sw ← getI a l
        let pr ← insInner L sw (a.length + 1) a (l - 1)
        let a2 ← setI pr.1 (pr.2 + 1) sw
        insOuter L R fuel a2 (l + 1)
      else pure a

/-- `rc_sort` with explicit recursion fuel; the wrapper `rc_sort` supplies
fuel `(R - L).toNat + 1`, which bounds the recursion depth because each
recursive call is on a strictly shorter range. -/
def sortF : Nat → List (D α) → Int → Int → Option (List (D α))
  | 0, _, _, _ => none
  | fuel+1, a, L, R =>
      if R - L > 25 then do
        let pl ← partitionStep a L R
        let a3 ← sortF fuel pl.1 L (pl.2 - 1)
        sortF fuel a3 (pl.2 + 1) R
      else
        insOuter L R ((R - L).toNat + 2) a (L + 1)

/-- `static void rc_sort(double *array, int L, int R)`: returns the array
after sorting the inclusive index range `[L, R]`, or `none` if the call
performs an out-of-bounds access. -/
def rc_sort (a : List (D α)) (L R : Int) : Option (List (D α)) :=
  sortF ((R - L).toNat + 1) a L R

/-! ### `rc_logsumexp` and `rc_logsumexp_pair`

C source (lines 52-71):

    extern double rc_logsumexp(double *array, int length)
    {
        int i;
        double sum=0.0;
        rc_sort(array, 0, length - 1);
        if(-INFINITY == array[length - 1])
            return -INFINITY;
        for(i=0; i<length-1; ++i)
            sum += exp(array[i] - array[length - 1]);
        return array[length - 1] + log(sum + 1.0);
    }

    extern double rc_logsumexp_pair(double a, double b)
    {
        if((-INFINITY == a) && (-INFINITY == b))
            return -INFINITY;
        if(b > a)
            return b + log(1.0 + exp(a - b));
        return a + log(1.0 + exp(b - a));
    }

The sorted array does not change inside the accumulation loop, so the
repeated C read `array[length - 1]` is the single value `last` below.
`b > a` on doubles holds exactly when `D.lt a b`. -/

/-- The accumulation loop `for(i=0; i<n; ++i) sum += exp(array[i] - last);`
with `n = length - 1`. -/
def sumLoop (rexp : α → α) (a : List (D α)) (last : D α) (n : Int) :
    Nat → Int → D α → Option (D α)
  | 0, _, _ => none
  | fuel+1, i, s =>
      if i < n then do
        let x ← getI a i
        sumLoop rexp a last n fuel (i+1) (D.add s (D.exp rexp (D.sub x last)))
      else pure s

/-- `extern double rc_logsumexp(double *array, int length)`. -/
def rc_logsumexp (rexp rlog : α → α) (a : List (D α)) (length : Int) : Option (D α) := do
  let a1 ← rc_sort a 0 (length - 1)
  let last ← getI a1 (length - 1)
  if D.isNegInf last then pure D.negInf
  else do
    let s ← sumLoop rexp a1 last (length - 1) ((length - 1).toNat + 1) 0 (D.fin 0)
    pure (D.add last (D.log rlog (D.add s (D.fin 1))))

/-- `extern double rc_logsumexp_pair(double a, double b)`. -/
def rc_logsumexp_pair (rexp rlog : α → α) (a b : D α) : D α :=
  if D.isNegInf a && D.isNegInf b then D.negInf
  else if D.lt a b then D.add b (D.log rlog (D.add (D.fin 1) (D.exp rexp (D.sub a b))))
  else D.add a (D.log rlog (D.add (D.fin 1) (D.exp rexp (D.sub b a))))

/-! ### Scan loop lemmas -/

theorem scanL_spec {a : List (D α)} {piv : D α} {R : Int}
    (hpiv : getI a R = some piv) :
    ∀ fuel (i : Int), 0 ≤ i → i ≤ R → (R - i).toNat < fuel →
    ∃ j, scanL a piv fuel i = some j ∧ i ≤ j ∧ j ≤ R ∧
      (∀ k x, i ≤ k → k < j → getI a k = some x → D.lt x piv = true) ∧
      (∃ x, getI a j = some x ∧ D.lt x piv = false) := by
  intro fuel
  induction fuel with
  | zero => intro i _ _ h; omega
  | succ fuel ih =>
    intro i h0 hR hfuel
    obtain ⟨hR0, hRlen, _⟩ := getI_eq_some hpiv
    obtain ⟨x, hx⟩ := getI_pos (a := a) (i := i) h0 (by omega)
    cases hlt : D.lt x piv with
    | true =>
      have hiR : i < R := by
        rcases lt_or_eq_of_le hR with h | h
        · exact h
        · exfalso
          rw [h, hpiv] at hx
          cases hx
          rw [D.lt_irrefl] at hlt
          exact Bool.true_eq_false.mp hlt.symm
      obtain ⟨j, hj, hij, hjR, hpass, hstop⟩ :=
        ih (i+1) (by omega) (by omega) (by omega)
      refine ⟨j, ?_, by omega, hjR, ?_, hstop⟩
      · simp only [scanL, hx, Option.bind_eq_bind, Option.some_bind]
        rw [if_pos hlt]
        exact hj
      · intro k y hk1 hk2 hky
        by_cases hki : k = i
        · subst hki
          rw [hky] at hx
          cases hx
          exact hlt
        · exact hpass k y (by omega) hk2 hky
    | false =>
      refine ⟨i, ?_, le_refl i, hR, ?_, x, hx, hlt⟩
      · simp only [scanL, hx, Option.bind_eq_bind, Option.some_bind]
        rw [if_neg (by simp [hlt])]
        rfl
      · intro k y hk1 hk2 _
        exact absurd hk2 (by omega)

theorem scanR_spec {a : List (D α)} {piv : D α} {l : Int} (hl : 0 ≤ l) :
    ∀ fuel (i : Int), 0 ≤ i → i < (a.length : Int) → (i - l).toNat < fuel →
    ∃ j, scanR a piv l fuel i = some j ∧ 0 ≤ j ∧ j ≤ i ∧ (l ≤ j ∨ j = i) ∧
      (∀ k x, j < k → k ≤ i → getI a k = some x → D.lt piv x = true) ∧
      (∃ x, getI a j = some x ∧ (D.lt piv x = false ∨ j ≤ l)) := by
  intro fuel
  induction fuel with
  | zero => intro i _ _ h; omega
  | succ fuel ih =>
    intro i h0 hlen hfuel
    obtain ⟨x, hx⟩ := getI_pos (a := a) (i := i) h0 hlen
    cases hgt : D.lt piv x with
    | false =>
      refine ⟨i, ?_, h0, le_refl i, by omega, ?_, x, hx, Or.inl hgt⟩
      · simp only [scanR, hx, Option.bind_eq_bind, Option.some_bind]
        rw [if_neg (by simp [hgt])]
        rfl
      · intro k y hk1 hk2 _
        exact absurd hk2 (by omega)
    | true =>
      by_cases hli : l < i
      · obtain ⟨j, hj, hj0, hji, hjd, hpass, hstop⟩ :=
          ih (i-1) (by omega) (by omega) (by omega)
        refine ⟨j, ?_, hj0, by omega, by omega, ?_, hstop⟩
        · simp only [scanR, hx, Option.bind_eq_bind, Option.some_bind]
          rw [if_pos hgt, if_pos hli]
          exact hj
        · intro k y hk1 hk2 hky
          by_cases hki : k = i
          · subst hki
            rw [hky] at hx
            cases hx
            exact hgt
          · exact hpass k y hk1 (by omega) hky
      · refine ⟨i, ?_, h0, le_refl i, by omega, ?_, x, hx, Or.inr (by omega)⟩
        · simp only [scanR, hx, Option.bind_eq_bind, Option.some_bind]
          rw [if_pos hgt, if_neg hli]
          rfl
        · intro k y hk1 hk2 _
          exact absurd hk2 (by omega)

/-! ### Partition loop invariant -/

/-- No NaN among the elements at indices `[L, R]`.  The sort's ordering
guarantees only concern these elements; values outside the sorted range are
never read. -/
def RangeOK (a : List (D α)) (L R : Int) : Prop :=
  ∀ i x, L ≤ i → i ≤ R → getI a i = some x → x ≠ D.nan

theorem rangeOK_mono {a : List (D α)} {L R L2 R2 : Int}
    (h : RangeOK a L R) (hL : L ≤ L2) (hR : R2 ≤ R) : RangeOK a L2 R2 :=
  fun i x h1 h2 hx => h i x (by omega) (by omega) hx

theorem rangeOK_of_not_mem {a : List (D α)} {L R : Int} (h : D.nan ∉ a) :
    RangeOK a L R :=
  fun _ x _ _ hx hxe => h (hxe ▸ getI_mem hx)

theorem qloop_spec (L R : Int) (piv : D α) :
    ∀ fuel (a : List (D α)) (l r : Int),
    RangeOK a L R →
    getI a R = some piv →
    0 ≤ L → L - 1 ≤ l → l < r → r ≤ R → L + 1 ≤ r → R < (a.length : Int) →
    (∀ i x, L ≤ i → i ≤ l → getI a i = some x → D.le x piv = true) →
    (∀ i x, r ≤ i → i ≤ R - 1 → getI a i = some x → D.le piv x = true) →
    (R - l).toNat < fuel →
    ∃ b l2, qloop R fuel a l r = some (b, l2) ∧
      b.length = a.length ∧ b ~ a ∧
      (∀ i : Int, i < L ∨ R - 1 < i → getI b i = getI a i) ∧
      L ≤ l2 ∧ l2 ≤ R ∧
      (∀ i x, L ≤ i → i ≤ l2 - 1 → getI b i = some x → D.le x piv = true) ∧
      (∀ i x, l2 + 1 ≤ i → i ≤ R - 1 → getI b i = some x → D.le piv x = true) ∧
      (∃ xl, getI b l2 = some xl ∧ D.le piv xl = true) := by
  intro fuel
  induction fuel with
  | zero => intro a l r _ _ _ _ _ _ _ _ _ _ h; omega
  | succ fuel ih =>
    intro a l r hnn hpiv hL0 hLl hlr hrR hLr hRlen hleft hright hfuel
    have hpivnn : piv ≠ D.nan := hnn R piv (by omega) (le_refl R) hpiv
    -- left scan
    obtain ⟨l2, hsl, hll2, hl2R, hpassL, x2, hx2, hx2stop⟩ :=
      scanL_spec hpiv (a.length + 1) (l + 1) (by omega) (by omega) (by omega)
    have hx2nn : x2 ≠ D.nan := hnn l2 x2 (by omega) (by omega) hx2
    have hx2ge : D.le piv x2 = true := D.le_total_of_not_lt hx2nn hpivnn hx2stop
    -- l2 cannot pass r
    have hl2r : l2 ≤ r := by
      by_contra hcon
      push_neg at hcon
      obtain ⟨xr, hxr⟩ := getI_pos (a := a) (i := r) (by omega) (by omega)
      have h1 : D.lt xr piv = true := hpassL r xr (by omega) (by omega) hxr
      have h2 : D.le piv xr = true := hright r xr (le_refl r) (by omega) hxr
      rw [D.not_lt_of_le h2] at h1
      exact Bool.true_eq_false.mp h1.symm
    -- right scan
    obtain ⟨j, hsr, hj0, hjr, hjd, hpassR, y, hy, hystop⟩ :=
      @scanR_spec α _ a piv l2 (by omega) (a.length + 1) (r - 1)
        (by omega) (by omega) (by omega)
    by_cases hbreak : l2 ≥ j
    · -- break: return (a, l2)
      refine ⟨a, l2, ?_, rfl, List.Perm.refl a, fun i _ => rfl, by omega, hl2R, ?_, ?_,
        x2, hx2, hx2ge⟩
      · simp only [qloop, Option.bind_eq_bind]
        rw [hpiv]
        simp only [Option.some_bind]
        rw [hsl]
        simp only [Option.some_bind]
        rw [hsr]
        simp only [Option.some_bind]
        rw [if_pos hbreak]
        rfl
      · intro i xi hi1 hi2 hxi
        by_cases hil : i ≤ l
        · exact hleft i xi hi1 hil hxi
        · exact D.le_of_lt (hpassL i xi (by omega) (by omega) hxi)
      · intro i xi hi1 hi2 hxi
        by_cases hir : i ≤ r - 1
        · exact D.le_of_lt (hpassR i xi (by omega) hir hxi)
        · exact hright i xi (by omega) hi2 hxi
    · -- continue: swap and recurse
      push_neg at hbreak
      obtain ⟨b2, hswap, _⟩ :=
        swapI_some (a := a) (i := l2) (j := j) (by omega) (by omega) (by omega) (by omega)
      obtain ⟨hb2len, hb2perm, _, _, _, _, hb2l2, hb2j, hb2other⟩ := swapI_props hswap
      have hynn : y ≠ D.nan := hnn j y (by omega) (by omega) hy
      have hyle : D.le y piv = true := by
        rcases hystop with h | h
        · exact D.le_total_of_not_lt hpivnn hynn h
        · omega
      have hb2nn : RangeOK b2 L R := by
        intro i x h1 h2 hx
        by_cases hi1 : i = l2
        · subst hi1
          rw [hb2l2, hy] at hx
          cases hx
          exact hynn
        · by_cases hi2 : i = j
          · subst hi2
            rw [hb2j, hx2] at hx
            cases hx
            exact hx2nn
          · rw [hb2other i hi1 hi2] at hx
            exact hnn i x h1 h2 hx
      have hb2piv : getI b2 R = some piv := by
        rw [hb2other R (by omega) (by omega)]
        exact hpiv
      have hb2left : ∀ i x, L ≤ i → i ≤ l2 → getI b2 i = some x → D.le x piv = true := by
        intro i xi hi1 hi2 hxi
        by_cases hi : i = l2
        · subst hi
          rw [hb2l2, hy] at hxi
          cases hxi
          exact hyle
        · rw [hb2other i (by omega) (by omega)] at hxi
          by_cases hil : i ≤ l
          · exact hleft i xi hi1 hil hxi
          · exact D.le_of_lt (hpassL i xi (by omega) (by omega) hxi)
      have hb2right : ∀ i x, j ≤ i → i ≤ R - 1 → getI b2 i = some x → D.le piv x = true := by
        intro i xi hi1 hi2 hxi
        by_cases hi : i = j
        · subst hi
          rw [hb2j, hx2] at hxi
          cases hxi
          exact hx2ge
        · rw [hb2other i (by omega) (by omega)] at hxi
          by_cases hir : i ≤ r - 1
          · exact D.le_of_lt (hpassR i xi (by omega) hir hxi)
          · exact hright i xi (by omega) hi2 hxi
      obtain ⟨b, l2f, hqb, hblen, hbperm, hbout, hl2f1, hl2f2, hbL, hbR, hbAt⟩ :=
        ih b2 l2 j hb2nn hb2piv hL0 (by omega) hbreak (by omega) (by omega)
          (by rw [hb2len]; exact hRlen) hb2left hb2right (by omega)
      refine ⟨b, l2f, ?_, by rw [hblen, hb2len], hbperm.trans hb2perm, ?_, hl2f1, hl2f2,
        hbL, hbR, hbAt⟩
      · simp only [qloop, Option.bind_eq_bind]
        rw [hpiv]
        simp only [Option.some_bind]
        rw [hsl]
        simp only [Option.some_bind]
        rw [hsr]
        simp only [Option.some_bind]
        rw [if_neg (by omega)]
        rw [hswap]
        simp only [Option.some_bind]
        exact hqb
      · intro i hi
        rw [hbout i hi, hb2other i (by omega) (by omega)]

/-! ### Insertion sort lemmas -/

theorem set_getElem_self_eq {β : Type} (a : List β) (m : Nat) (h : m < a.length) :
    a.set m (a[m]) = a := by
  apply List.ext_getElem?
  intro n
  by_cases hn : n = m
  · subst hn
    rw [List.getElem?_set_self']
    simp [List.getElem?_eq_getElem h]
  · rw [List.getElem?_set_ne (Ne.symm hn)]

theorem set_shift_perm {β : Type} (a : List β) (m : Nat) (v : β) (h : m + 1 < a.length) :
    (a.set (m+1) (a[m])).set m v ~ a.set (m+1) v := by
  have hm : m < a.length := by omega
  have hb1 : m + 1 < (a.set (m+1) v).length := by simpa using h
  have hb2 : m < (a.set (m+1) v).length := by simpa using hm
  have hswap := set_set_swap_perm (a.set (m+1) v) m (m+1) hb2 hb1
  have e1 : (a.set (m+1) v)[m+1] = v := List.getElem_set_self ..
  have e2 : (a.set (m+1) v)[m] = a[m] := by
    rw [List.getElem_set_ne (by omega)]
  rw [e1, e2] at hswap
  have e3 : ((a.set (m+1) v).set m v).set (m+1) (a[m]) = (a.set (m+1) (a[m])).set m v := by
    rw [List.set_comm _ _ _ (by omega : m + 1 ≠ m)]
    rw [List.set_comm _ _ _ (by omega : m + 1 ≠ m), List.set_set]
  rw [e3] at hswap
  exact hswap

/-- Positional non-decreasing order of the elements at indices `[L, R]`. -/
def SortedRange (a : List (D α)) (L R : Int) : Prop :=
  ∀ i j x y, L ≤ i → i < j → j ≤ R → getI a i = some x → getI a j = some y →
    D.le x y = true

theorem sortedRange_mono {a : List (D α)} {L R L2 R2 : Int}
    (h : SortedRange a L R) (hL : L ≤ L2) (hR : R2 ≤ R) : SortedRange a L2 R2 :=
  fun i j x y h1 h2 h3 hx hy => h i j x y (by omega) h2 (by omega) hx hy

theorem insInner_spec (L : Int) (sw : D α) :
    ∀ fuel (a : List (D α)) (r : Int),
    0 ≤ L → L - 1 ≤ r → r + 1 < (a.length : Int) → (r + 1 - L).toNat < fuel →
    ∃ b j, insInner L sw fuel a r = some (b, j) ∧ b.length = a.length ∧
      L - 1 ≤ j ∧ j ≤ r ∧
      (∀ i : Int, i ≤ j → getI b i = getI a i) ∧
      (∀ i : Int, r + 1 < i → getI b i = getI a i) ∧
      (∀ i : Int, j + 1 < i → i ≤ r + 1 → getI b i = getI a (i - 1)) ∧
      (∀ v, b.set ((j+1).toNat) v ~ a.set ((r+1).toNat) v) ∧
      (∀ k x, j < k → k ≤ r → getI a k = some x → D.lt sw x = true) ∧
      (j = L - 1 ∨ ∃ x, getI a j = some x ∧ D.lt sw x = false) := by
  intro fuel
  induction fuel with
  | zero => intro a r _ _ _ h; omega
  | succ fuel ih =>
    intro a r hL0 hLr hrlen hfuel
    by_cases hrL : L ≤ r
    · obtain ⟨x, hx⟩ := getI_pos (a := a) (i := r) (by omega) (by omega)
      cases hlt : D.lt sw x with
      | false =>
        refine ⟨a, r, ?_, rfl, hLr, le_refl r, fun _ _ => rfl, fun _ _ => rfl,
          ?_, fun v => List.Perm.refl _, ?_, Or.inr ⟨x, hx, hlt⟩⟩
        · simp only [insInner, Option.bind_eq_bind]
          rw [if_pos hrL, hx]
          simp only [Option.some_bind]
          rw [if_neg (by simp [hlt])]
          rfl
        · intro i h1 h2
          exact absurd h1 (by omega)
        · intro k y hk1 hk2 _
          exact absurd hk1 (by omega)
      | true =>
        have hset : setI a (r+1) x = some (a.set (r+1).toNat x) :=
          setI_pos (by omega) (by omega)
        obtain ⟨b, j, hb, hblen, hLj, hjr, hbelow, habove, hshift, hperm, hpass, hstop⟩ :=
          ih (a.set (r+1).toNat x) (r-1) hL0 (by omega) (by simp; omega) (by omega)
        have hsetlen : (a.set (r+1).toNat x).length = a.length := by simp
        have hother : ∀ i : Int, i ≠ r + 1 → getI (a.set (r+1).toNat x) i = getI a i := by
          intro i hi
          exact getI_set_other hset hi
        have hat : getI (a.set (r+1).toNat x) (r+1) = some x := getI_set_self hset
        refine ⟨b, j, ?_, by rw [hblen, hsetlen], hLj, by omega, ?_, ?_, ?_, ?_, ?_, ?_⟩
        · simp only [insInner, Option.bind_eq_bind]
          rw [if_pos hrL, hx]
          simp only [Option.some_bind]
          rw [if_pos hlt, hset]
          simp only [Option.some_bind]
          exact hb
        · intro i hi
          rw [hbelow i hi, hother i (by omega)]
        · intro i hi
          rw [habove i (by omega), hother i (by omega)]
        · intro i hi1 hi2
          by_cases hir : i = r + 1
          · subst hir
            rw [habove (r+1) (by omega), hat]
            have : r + 1 - 1 = r := by omega
            rw [this, hx]
          · rw [hshift i hi1 (by omega), hother (i-1) (by omega)]
        · intro v
          have h1 := hperm v
          have h2 : (r - 1 + 1).toNat = r.toNat := by omega
          rw [h2] at h1
          have h3 : ((a.set (r+1).toNat x).set r.toNat v) ~ a.set (r+1).toNat v := by
            have hb0 : r.toNat < a.length := by omega
            have hx2 : x = a[r.toNat] := by
              rw [getI_eq_getElem (by omega) (by omega)] at hx
              exact (Option.some_inj.mp hx).symm
            have hr1 : (r+1).toNat = r.toNat + 1 := by omega
            rw [hr1] at h1 ⊢
            rw [hx2]
            exact set_shift_perm a r.toNat v (by omega)
          exact h1.trans h3
        · intro k y hk1 hk2 hky
          by_cases hkr : k = r
          · subst hkr
            rw [hky] at hx
            cases hx
            exact hlt
          · refine hpass k y hk1 (by omega) ?_
            rw [hother k (by omega)]
            exact hky
        · rcases hstop with h | ⟨y, hy, hyl⟩
          · exact Or.inl h
          · refine Or.inr ⟨y, ?_, hyl⟩
            rw [← hother j (by omega)]
            exact hy
    · refine ⟨a, r, ?_, rfl, hLr, le_refl r, fun _ _ => rfl, fun _ _ => rfl,
        ?_, fun v => List.Perm.refl _, ?_, Or.inl (by omega)⟩
      · simp only [insInner]
        rw [if_neg hrL]
        rfl
      · intro i h1 h2
        exact absurd h1 (by omega)
      · intro k y hk1 hk2 _
        exact absurd hk1 (by omega)

theorem insOuter_spec (L R : Int) :
    ∀ fuel (a : List (D α)) (l : Int),
    RangeOK a L R →
    0 ≤ L → L + 1 ≤ l → R < (a.length : Int) →
    SortedRange a L (l - 1) →
    (R + 2 - l).toNat < fuel →
    ∃ b, insOuter L R fuel a l = some b ∧ b.length = a.length ∧ b ~ a ∧
      (∀ i : Int, i < L ∨ R < i → getI b i = getI a i) ∧ SortedRange b L R := by
  intro fuel
  induction fuel with
  | zero => intro a l _ _ _ _ _ h; omega
  | succ fuel ih =>
    intro a l hnn hL0 hLl hRlen hsorted hfuel
    by_cases hlR : l ≤ R
    · obtain ⟨sw, hsw⟩ := getI_pos (a := a) (i := l) (by omega) (by omega)
      have hswnn : sw ≠ D.nan := hnn l sw (by omega) (by omega) hsw
      obtain ⟨b1, j, hinner, hb1len, hLj, hjr, hbelow, habove, hshift, hperm, hpass, hstop⟩ :=
        insInner_spec L sw (a.length + 1) a (l - 1) hL0 (by omega) (by omega) (by omega)
      have hsetc : setI b1 (j+1) sw = some (b1.set (j+1).toNat sw) :=
        setI_pos (by omega) (by rw [hb1len]; omega)
      set c := b1.set (j+1).toNat sw with hc
      have hclen : c.length = a.length := by rw [hc]; simp [hb1len]
      have hcperm : c ~ a := by
        have h1 : c ~ a.set ((l-1)+1).toNat sw := hperm sw
        have h2 : ((l-1)+1).toNat = l.toNat := by omega
        rw [h2] at h1
        have hb0 : l.toNat < a.length := by omega
        have h3 : sw = a[l.toNat] := by
          rw [getI_eq_getElem (by omega) (by omega)] at hsw
          exact (Option.some_inj.mp hsw).symm
        rw [h3] at h1
        rw [set_getElem_self_eq a l.toNat (by omega)] at h1
        exact h1
      have hcat : getI c (j+1) = some sw := getI_set_self hsetc
      have hcother : ∀ i : Int, i ≠ j + 1 → getI c i = getI b1 i := by
        intro i hi
        exact getI_set_other hsetc hi
      -- reads from c inside [L, l]
      have hcbelow : ∀ i : Int, L ≤ i → i ≤ j → getI c i = getI a i := by
        intro i h1 h2
        rw [hcother i (by omega)]
        exact hbelow i h2
      have hcshift : ∀ i : Int, j + 1 < i → i ≤ l → getI c i = getI a (i - 1) := by
        intro i h1 h2
        rw [hcother i (by omega)]
        exact hshift i h1 (by omega)
      -- value facts
      have hK1 : ∀ t x, L ≤ t → t ≤ j → getI a t = some x → D.le x sw = true := by
        intro t x ht1 ht2 hx
        rcases hstop with h | ⟨z, hz, hzlt⟩
        · omega
        · have hznn : z ≠ D.nan := hnn j z (by omega) (by omega) hz
          have hzle : D.le z sw = true := D.le_total_of_not_lt hswnn hznn hzlt
          by_cases htj : t = j
          · subst htj
            rw [hx] at hz
            cases hz
            exact hzle
          · exact D.le_trans (hsorted t j x z ht1 (by omega) (by omega) hx hz) hzle
      have hK2 : ∀ t x, j + 1 ≤ t → t ≤ l - 1 → getI a t = some x → D.le sw x = true := by
        intro t x ht1 ht2 hx
        exact D.le_of_lt (hpass t x (by omega) (by omega) hx)
      have hcsorted : SortedRange c L l := by
        intro p q x y hp hpq hq hxp hyq
        by_cases hpj : p ≤ j
        · rw [hcbelow p (by omega) hpj] at hxp
          by_cases hqj : q ≤ j
          · rw [hcbelow q (by omega) hqj] at hyq
            exact hsorted p q x y hp hpq (by omega) hxp hyq
          · by_cases hqj1 : q = j + 1
            · subst hqj1
              rw [hcat] at hyq
              cases hyq
              exact hK1 p x hp (by omega) hxp
            · rw [hcshift q (by omega) hq] at hyq
              have h1 : D.le x sw = true := hK1 p x hp (by omega) hxp
              have h2 : D.le sw y = true := hK2 (q-1) y (by omega) (by omega) hyq
              exact D.le_trans h1 h2
        · by_cases hpj1 : p = j + 1
          · subst hpj1
            rw [hcat] at hxp
            cases hxp
            rw [hcshift q (by omega) hq] at hyq
            exact hK2 (q-1) y (by omega) (by omega) hyq
          · rw [hcshift p (by omega) (by omega)] at hxp
            rw [hcshift q (by omega) hq] at hyq
            exact hsorted (p-1) (q-1) x y (by omega) (by omega) (by omega) hxp hyq
      have hcout : ∀ i : Int, i < L ∨ R < i → getI c i = getI a i := by
        intro i hi
        rcases hi with hi | hi
        · rw [hcother i (by omega)]
          exact hbelow i (by omega)
        · rw [hcother i (by omega)]
          exact habove i (by omega)
      have hcok : RangeOK c L R := by
        intro i x h1 h2 hx
        by_cases hij : i = j + 1
        · subst hij
          rw [hcat] at hx
          cases hx
          exact hswnn
        · by_cases hii : i ≤ j
          · rw [hcbelow i h1 hii] at hx
            exact hnn i x h1 h2 hx
          · by_cases hil : i ≤ l
            · rw [hcshift i (by omega) hil] at hx
              exact hnn (i-1) x (by omega) (by omega) hx
            · rw [hcother i (by omega), habove i (by omega)] at hx
              exact hnn i x h1 h2 hx
      obtain ⟨b, hb, hblen, hbperm, hbout, hbsorted⟩ :=
        ih c (l+1) hcok hL0 (by omega) (by rw [hclen]; exact hRlen)
          (by simpa using hcsorted) (by omega)
      refine ⟨b, ?_, by rw [hblen, hclen], hbperm.trans hcperm, ?_, hbsorted⟩
      · simp only [insOuter, Option.bind_eq_bind]
        rw [if_pos hlR, hsw]
        simp only [Option.some_bind]
        rw [hinner]
        simp only [Option.some_bind]
        rw [hsetc]
        simp only [Option.some_bind]
        exact hb
      · intro i hi
        rw [hbout i hi, hcout i hi]
    · refine ⟨a, ?_, rfl, List.Perm.refl a, fun _ _ => rfl, sortedRange_mono hsorted (le_refl L) (by omega)⟩
      simp only [insOuter]
      rw [if_neg hlR]
      rfl

/-! ### Success of the sort on arbitrary double arrays (NaN allowed)

The partition and insertion loops never access out of bounds whenever
`0 ≤ L` and `R < length`, regardless of the array's contents: this only
uses that IEEE `<` is irreflexive (true even for NaN). -/

theorem qloop_some (L R : Int) (piv : D α) :
    ∀ fuel (a : List (D α)) (l r : Int),
    getI a R = some piv →
    0 ≤ L → L - 1 ≤ l → l < r → r ≤ R → L + 1 ≤ r → R < (a.length : Int) →
    (R - l).toNat < fuel →
    ∃ b l2, qloop R fuel a l r = some (b, l2) ∧
      b.length = a.length ∧ L ≤ l2 ∧ l2 ≤ R := by
  intro fuel
  induction fuel with
  | zero => intro a l r _ _ _ _ _ _ _ h; omega
  | succ fuel ih =>
    intro a l r hpiv hL0 hLl hlr hrR hLr hRlen hfuel
    obtain ⟨l2, hsl, hll2, hl2R, _, _⟩ :=
      scanL_spec hpiv (a.length + 1) (l + 1) (by omega) (by omega) (by omega)
    obtain ⟨j, hsr, hj0, hjr, _, _, _⟩ :=
      @scanR_spec α _ a piv l2 (by omega) (a.length + 1) (r - 1)
        (by omega) (by omega) (by omega)
    by_cases hbreak : l2 ≥ j
    · refine ⟨a, l2, ?_, rfl, by omega, hl2R⟩
      simp only [qloop, Option.bind_eq_bind]
      rw [hpiv]
      simp only [Option.some_bind]
      rw [hsl]
      simp only [Option.some_bind]
      rw [hsr]
      simp only [Option.some_bind]
      rw [if_pos hbreak]
      rfl
    · push_neg at hbreak
      obtain ⟨b2, hswap, _⟩ :=
        swapI_some (a := a) (i := l2) (j := j) (by omega) (by omega) (by omega) (by omega)
      obtain ⟨hb2len, _, _, _, _, _, _, _, hb2other⟩ := swapI_props hswap
      have hb2piv : getI b2 R = some piv := by
        rw [hb2other R (by omega) (by omega)]
        exact hpiv
      obtain ⟨b, l2f, hqb, hblen, hbL, hbR⟩ :=
        ih b2 l2 j hb2piv hL0 (by omega) hbreak (by omega) (by omega)
          (by rw [hb2len]; exact hRlen) (by omega)
      refine ⟨b, l2f, ?_, by rw [hblen, hb2len], hbL, hbR⟩
      simp only [qloop, Option.bind_eq_bind]
      rw [hpiv]
      simp only [Option.some_bind]
      rw [hsl]
      simp only [Option.some_bind]
      rw [hsr]
      simp only [Option.some_bind]
      rw [if_neg (by omega)]
      rw [hswap]
      simp only [Option.some_bind]
      exact hqb

theorem insOuter_some (L R : Int) :
    ∀ fuel (a : List (D α)) (l : Int),
    0 ≤ L → L + 1 ≤ l → R < (a.length : Int) →
    (R + 2 - l).toNat < fuel →
    ∃ b, insOuter L R fuel a l = some b ∧ b.length = a.length := by
  intro fuel
  induction fuel with
  | zero => intro a l _ _ _ h; omega
  | succ fuel ih =>
    intro a l hL0 hLl hRlen hfuel
    by_cases hlR : l ≤ R
    · obtain ⟨sw, hsw⟩ := getI_pos (a := a) (i := l) (by omega) (by omega)
      obtain ⟨b1, j, hinner, hb1len, hLj, hjr, _, _, _, _, _, _⟩ :=
        insInner_spec L sw (a.length + 1) a (l - 1) hL0 (by omega) (by omega) (by omega)
      have hsetc : setI b1 (j+1) sw = some (b1.set (j+1).toNat sw) :=
        setI_pos (by omega) (by rw [hb1len]; omega)
      have hclen : (b1.set (j+1).toNat sw).length = a.length := by simp [hb1len]
      obtain ⟨b, hb, hblen⟩ :=
        ih (b1.set (j+1).toNat sw) (l+1) hL0 (by omega) (by rw [hclen]; exact hRlen)
          (by omega)
      refine ⟨b, ?_, by rw [hblen, hclen]⟩
      simp only [insOuter, Option.bind_eq_bind]
      rw [if_pos hlR, hsw]
      simp only [Option.some_bind]
      rw [hinner]
      simp only [Option.some_bind]
      rw [hsetc]
      simp only [Option.some_bind]
      exact hb
    · refine ⟨a, ?_, rfl⟩
      simp only [insOuter]
      rw [if_neg hlR]
      rfl

/-! ### Range slices -/

/-- The elements at indices `[L, R]` of `a`, as a list. -/
def extract {β : Type} (a : List β) (L R : Int) : List β :=
  (a.drop L.toNat).take (R + 1 - L).toNat

theorem extract_getElem? {β : Type} (a : List β) (L R : Int) (k : Nat) :
    (extract a L R)[k]? = if (k : Int) < R + 1 - L then a[L.toNat + k]? else none := by
  unfold extract
  rw [List.getElem?_take, List.getElem?_drop]
  by_cases hc : (k : Int) < R + 1 - L
  · rw [if_pos (by omega), if_pos hc]
  · rw [if_neg (by omega), if_neg hc]

theorem getI_extract_mem {β : Type} {a : List β} {L R i : Int} {x : β} (hL : 0 ≤ L)
    (h1 : L ≤ i) (h2 : i ≤ R) (h : getI a i = some x) : x ∈ extract a L R := by
  apply List.mem_iff_getElem?.mpr
  refine ⟨(i - L).toNat, ?_⟩
  rw [extract_getElem?, if_pos (by omega)]
  obtain ⟨h0, hlen, hv⟩ := getI_eq_some h
  have he : L.toNat + (i - L).toNat = i.toNat := by omega
  rw [he]
  exact hv

theorem mem_extract_getI {β : Type} {a : List β} {L R : Int} {x : β} (hL : 0 ≤ L)
    (h : x ∈ extract a L R) : ∃ i, L ≤ i ∧ i ≤ R ∧ getI a i = some x := by
  obtain ⟨k, hk⟩ := List.mem_iff_getElem?.mp h
  rw [extract_getElem?] at hk
  by_cases hc : (k : Int) < R + 1 - L
  · rw [if_pos hc] at hk
    refine ⟨L + k, by omega, by omega, ?_⟩
    unfold getI
    rw [if_pos (by omega)]
    have he : (L + (k : Int)).toNat = L.toNat + k := by omega
    rw [he]
    exact hk
  · rw [if_neg hc] at hk
    exact absurd hk (by simp)

theorem take_eq_of_agree {β : Type} {a b : List β} {L : Int}
    (h : ∀ i : Int, i < L → getI b i = getI a i) :
    b.take L.toNat = a.take L.toNat := by
  apply List.ext_getElem?
  intro n
  rw [List.getElem?_take, List.getElem?_take]
  by_cases hc : n < L.toNat
  · rw [if_pos hc, if_pos hc]
    have hn := h n (by omega)
    unfold getI at hn
    rw [if_pos (by omega), if_pos (by omega)] at hn
    simpa using hn
  · rw [if_neg hc, if_neg hc]

theorem drop_eq_of_agree {β : Type} {a b : List β} {R : Int}
    (h : ∀ i : Int, R < i → getI b i = getI a i) :
    b.drop (R+1).toNat = a.drop (R+1).toNat := by
  apply List.ext_getElem?
  intro n
  rw [List.getElem?_drop, List.getElem?_drop]
  have hn := h (((R+1).toNat : Int) + n) (by omega)
  unfold getI at hn
  rw [if_pos (by omega), if_pos (by omega)] at hn
  have he : ((((R+1).toNat : Int) + n)).toNat = (R+1).toNat + n := by omega
  rw [he] at hn
  exact hn

theorem extract_decomp {β : Type} (a : List β) (L R : Int)
    (h0 : 0 ≤ L) (h1 : L ≤ R + 1) :
    a = a.take L.toNat ++ extract a L R ++ a.drop (R+1).toNat := by
  have hdd : a.drop (R+1).toNat = (a.drop L.toNat).drop (R+1-L).toNat := by
    rw [List.drop_drop]
    congr 1
    omega
  rw [List.append_assoc, hdd]
  unfold extract
  rw [List.take_append_drop, List.take_append_drop]

theorem extract_perm {β : Type} [DecidableEq β] {a b : List β} {L R : Int}
    (hperm : b ~ a)
    (hout : ∀ i : Int, i < L ∨ R < i → getI b i = getI a i)
    (h0 : 0 ≤ L) (h1 : L ≤ R + 1) :
    extract b L R ~ extract a L R := by
  rw [List.perm_iff_count]
  intro x
  have e1 : b.count x = (b.take L.toNat).count x + ((extract b L R).count x
      + (b.drop (R+1).toNat).count x) := by
    conv_lhs => rw [extract_decomp b L R h0 h1]
    rw [List.append_assoc, List.count_append, List.count_append]
  have e2 : a.count x = (a.take L.toNat).count x + ((extract a L R).count x
      + (a.drop (R+1).toNat).count x) := by
    conv_lhs => rw [extract_decomp a L R h0 h1]
    rw [List.append_assoc, List.count_append, List.count_append]
  have htake : b.take L.toNat = a.take L.toNat :=
    take_eq_of_agree (fun i hi => hout i (Or.inl hi))
  have hdrop : b.drop (R+1).toNat = a.drop (R+1).toNat :=
    drop_eq_of_agree (fun i hi => hout i (Or.inr hi))
  have hcnt : b.count x = a.count x := List.perm_iff_count.mp hperm x
  rw [htake, hdrop] at e1
  omega

theorem region_all {a b : List (D α)} {L R : Int} {P : D α → Prop}
    (hperm : extract b L R ~ extract a L R) (h0 : 0 ≤ L)
    (hP : ∀ i x, L ≤ i → i ≤ R → getI a i = some x → P x) :
    ∀ i x, L ≤ i → i ≤ R → getI b i = some x → P x := by
  intro i x hi1 hi2 hx
  have hmem : x ∈ extract a L R := hperm.mem_iff.mp (getI_extract_mem h0 hi1 hi2 hx)
  obtain ⟨q, hq1, hq2, hq⟩ := mem_extract_getI h0 hmem
  exact hP q x hq1 hq2 hq

/-! ### Main correctness of `rc_sort` -/

theorem sortF_correct :
    ∀ fuel (a : List (D α)) (L R : Int),
    RangeOK a L R →
    0 ≤ L → R < (a.length : Int) →
    (R - L).toNat < fuel →
    ∃ b, sortF fuel a L R = some b ∧ b.length = a.length ∧ b ~ a ∧
      (∀ i : Int, i < L ∨ R < i → getI b i = getI a i) ∧ SortedRange b L R := by
  intro fuel
  induction fuel with
  | zero => intro a L R _ _ _ h; omega
  | succ fuel ih =>
    intro a L R hnn hL0 hRlen hfuel
    by_cases hqs : R - L > 25
    · -- quicksort branch
      obtain ⟨piv, hpiv⟩ := getI_pos (a := a) (i := R) (by omega) hRlen
      obtain ⟨a1, l, hqloop, ha1len, ha1perm, ha1out, hLl, hlR, hleft, hright, xl, hxl, hxlge⟩ :=
        qloop_spec L R piv (a.length + 1) a (L-1) R hnn hpiv hL0 (le_refl (L-1))
          (by omega) (le_refl R) (by omega) hRlen
          (fun i x h1 h2 _ => absurd h2 (by omega))
          (fun i x h1 h2 _ => absurd h1 (by omega))
          (by omega)
      have ha1piv : getI a1 R = some piv := by
        rw [ha1out R (by omega)]
        exact hpiv
      obtain ⟨a2, hswap, _⟩ := swapI_some (a := a1) (i := l) (j := R)
        (by omega) (by omega) (by omega) (by omega)
      obtain ⟨ha2len, ha2perm, _, _, _, _, ha2l, ha2R, ha2other⟩ := swapI_props hswap
      rw [ha1piv] at ha2l
      rw [hxl] at ha2R
      have ha1ok : RangeOK a1 L R := by
        have hep : extract a1 L R ~ extract a L R :=
          extract_perm ha1perm
            (fun i hi => ha1out i (by rcases hi with h | h; exact Or.inl h; exact Or.inr (by omega)))
            hL0 (by omega)
        exact region_all hep hL0 hnn
      have ha2ok : RangeOK a2 L R := by
        intro i x h1 h2 hx
        by_cases hil : i = l
        · subst hil
          rw [ha2l] at hx
          cases hx
          exact hnn R piv (by omega) (le_refl R) hpiv
        · by_cases hiR : i = R
          · subst hiR
            rw [ha2R] at hx
            cases hx
            exact ha1ok l xl (by omega) (by omega) hxl
          · rw [ha2other i hil hiR] at hx
            exact ha1ok i x h1 h2 hx
      have ha2out : ∀ i : Int, i < L ∨ R < i → getI a2 i = getI a i := by
        intro i hi
        rw [ha2other i (by omega) (by omega), ha1out i (by omega)]
      have ha2left : ∀ i x, L ≤ i → i ≤ l - 1 → getI a2 i = some x → D.le x piv = true := by
        intro i x h1 h2 hx
        rw [ha2other i (by omega) (by omega)] at hx
        exact hleft i x h1 h2 hx
      have ha2right : ∀ i x, l + 1 ≤ i → i ≤ R → getI a2 i = some x → D.le piv x = true := by
        intro i x h1 h2 hx
        by_cases hiR : i = R
        · subst hiR
          rw [ha2R] at hx
          cases hx
          exact hxlge
        · rw [ha2other i (by omega) (by omega)] at hx
          exact hright i x h1 (by omega) hx
      -- first recursive call on [L, l-1]
      obtain ⟨a3, hc1, ha3len, ha3perm, ha3out, ha3sorted⟩ :=
        ih a2 L (l-1) (rangeOK_mono ha2ok (le_refl L) (by omega)) hL0 (by omega) (by omega)
      have ha3ok : RangeOK a3 (l+1) R := by
        intro i x h1 h2 hx
        rw [ha3out i (by omega)] at hx
        exact ha2ok i x (by omega) h2 hx
      have ha3left : ∀ i x, L ≤ i → i ≤ l - 1 → getI a3 i = some x → D.le x piv = true := by
        have hep : extract a3 L (l-1) ~ extract a2 L (l-1) :=
          extract_perm ha3perm ha3out hL0 (by omega)
        exact region_all hep hL0 ha2left
      have ha3l : getI a3 l = some piv := by
        rw [ha3out l (by omega)]
        exact ha2l
      have ha3right : ∀ i x, l + 1 ≤ i → i ≤ R → getI a3 i = some x → D.le piv x = true := by
        intro i x h1 h2 hx
        rw [ha3out i (by omega)] at hx
        exact ha2right i x h1 h2 hx
      -- second recursive call on [l+1, R]
      obtain ⟨b, hc2, hblen, hbperm, hbout, hbsorted⟩ :=
        ih a3 (l+1) R ha3ok (by omega) (by rw [ha3len, ha2len, ha1len]; exact hRlen)
          (by omega)
      have hbright : ∀ i x, l + 1 ≤ i → i ≤ R → getI b i = some x → D.le piv x = true := by
        have hep : extract b (l+1) R ~ extract a3 (l+1) R :=
          extract_perm hbperm hbout (by omega) (by omega)
        exact region_all hep (by omega) ha3right
      have hbleft : ∀ i x, L ≤ i → i ≤ l - 1 → getI b i = some x → D.le x piv = true := by
        intro i x h1 h2 hx
        rw [hbout i (by omega)] at hx
        exact ha3left i x h1 h2 hx
      have hbl : getI b l = some piv := by
        rw [hbout l (by omega)]
        exact ha3l
      have hbsortedL : SortedRange b L (l-1) := by
        intro i j x y h1 h2 h3 hx hy
        refine ha3sorted i j x y h1 h2 h3 ?_ ?_
        · exact ((hbout i (by omega)).symm).trans hx
        · exact ((hbout j (by omega)).symm).trans hy
      refine ⟨b, ?_, ?_, ?_, ?_, ?_⟩
      · -- the computation equation
        have hps : partitionStep a L R = some (a2, l) := by
          unfold partitionStep
          rw [hqloop]
          simp only [Option.bind_eq_bind, Option.some_bind]
          rw [hswap]
          simp only [Option.some_bind]
          rfl
        simp only [sortF, Option.bind_eq_bind]
        rw [if_pos hqs, hps]
        simp only [Option.some_bind]
        rw [hc1]
        simp only [Option.some_bind]
        exact hc2
      · rw [hblen, ha3len, ha2len, ha1len]
      · exact (hbperm.trans ha3perm).trans (ha2perm.trans ha1perm)
      · intro i hi
        rw [hbout i (by rcases hi with h | h; exact Or.inl (by omega); exact Or.inr h),
          ha3out i (by rcases hi with h | h; exact Or.inl (by omega); exact Or.inr (by omega)),
          ha2out i hi]
      · -- sortedness of the whole range [L, R]
        intro p q x y hp hpq hq hxp hyq
        rcases lt_trichotomy q l with hql | hql | hql
        · exact hbsortedL p q x y hp hpq (by omega) hxp hyq
        · subst hql
          rw [hbl] at hyq
          cases hyq
          exact hbleft p x hp (by omega) hxp
        · rcases lt_trichotomy p l with hpl | hpl | hpl
          · have h1 : D.le x piv = true := hbleft p x hp (by omega) hxp
            have h2 : D.le piv y = true := hbright q y (by omega) hq hyq
            exact D.le_trans h1 h2
          · subst hpl
            rw [hbl] at hxp
            cases hxp
            exact hbright q y (by omega) hq hyq
          · exact hbsorted p q x y (by omega) hpq hq hxp hyq
    · -- insertion branch
      obtain ⟨b, hb, hblen, hbperm, hbout, hbsorted⟩ :=
        insOuter_spec L R ((R - L).toNat + 2) a (L+1) hnn hL0 (le_refl (L+1)) hRlen
          (fun i j x y h1 h2 h3 _ _ => absurd h2 (by omega)) (by omega)
      refine ⟨b, ?_, hblen, hbperm, hbout, hbsorted⟩
      simp only [sortF]
      rw [if_neg hqs]
      exact hb

theorem sortF_some :
    ∀ fuel (a : List (D α)) (L R : Int),
    0 ≤ L → R < (a.length : Int) →
    (R - L).toNat < fuel →
    ∃ b, sortF fuel a L R = some b ∧ b.length = a.length := by
  intro fuel
  induction fuel with
  | zero => intro a L R _ _ h; omega
  | succ fuel ih =>
    intro a L R hL0 hRlen hfuel
    by_cases hqs : R - L > 25
    · obtain ⟨piv, hpiv⟩ := getI_pos (a := a) (i := R) (by omega) hRlen
      obtain ⟨a1, l, hqloop, ha1len, hLl, hlR⟩ :=
        qloop_some L R piv (a.length + 1) a (L-1) R hpiv hL0 (le_refl (L-1))
          (by omega) (le_refl R) (by omega) hRlen (by omega)
      obtain ⟨a2, hswap, _⟩ := swapI_some (a := a1) (i := l) (j := R)
        (by omega) (by omega) (by omega) (by omega)
      obtain ⟨ha2len, _⟩ := swapI_props hswap
      obtain ⟨a3, hc1, ha3len⟩ := ih a2 L (l-1) hL0 (by omega) (by omega)
      obtain ⟨b, hc2, hblen⟩ :=
        ih a3 (l+1) R (by omega) (by rw [ha3len, ha2len, ha1len]; exact hRlen) (by omega)
      refine ⟨b, ?_, by rw [hblen, ha3len, ha2len, ha1len]⟩
      have hps : partitionStep a L R = some (a2, l) := by
        unfold partitionStep
        rw [hqloop]
        simp only [Option.bind_eq_bind, Option.some_bind]
        rw [hswap]
        simp only [Option.some_bind]
        rfl
      simp only [sortF, Option.bind_eq_bind]
      rw [if_pos hqs, hps]
      simp only [Option.some_bind]
      rw [hc1]
      simp only [Option.some_bind]
      exact hc2
    · obtain ⟨b, hb, hblen⟩ :=
        insOuter_some L R ((R - L).toNat + 2) a (L+1) hL0 (le_refl (L+1)) hRlen (by omega)
      refine ⟨b, ?_, hblen⟩
      simp only [sortF]
      rw [if_neg hqs]
      exact hb

theorem rc_sort_correct {a : List (D α)} {L R : Int}
    (hnn : RangeOK a L R) (hL0 : 0 ≤ L) (hR : R < (a.length : Int)) :
    ∃ b, rc_sort a L R = some b ∧ b.length = a.length ∧ b ~ a ∧
      (∀ i : Int, i < L ∨ R < i → getI b i = getI a i) ∧ SortedRange b L R :=
  sortF_correct ((R - L).toNat + 1) a L R hnn hL0 hR (by omega)

theorem rc_sort_some {a : List (D α)} {L R : Int}
    (hL0 : 0 ≤ L) (hR : R < (a.length : Int)) :
    ∃ b, rc_sort a L R = some b ∧ b.length = a.length :=
  sortF_some ((R - L).toNat + 1) a L R hL0 hR (by omega)

theorem rc_sort_noop {a : List (D α)} {L R : Int} (h : R ≤ L) :
    rc_sort a L R = some a := by
  unfold rc_sort
  have he : (R - L).toNat = 0 := by omega
  rw [he]
  simp only [sortF]
  rw [if_neg (by omega)]
  simp only [insOuter]
  rw [if_neg (by omega)]
  rfl

/-! ### Uniqueness of the sorted result -/

instance : IsAntisymm (D α) (fun x y => D.le x y = true) :=
  ⟨fun _ _ h1 h2 => D.le_antisymm h1 h2⟩

theorem extract_length {β : Type} (a : List β) (L R : Int) :
    (extract a L R).length = min (R + 1 - L).toNat (a.length - L.toNat) := by
  unfold extract
  simp [List.length_take, List.length_drop]

theorem sortedRange_pairwise {a : List (D α)} {L R : Int} (h0 : 0 ≤ L)
    (h : SortedRange a L R) :
    (extract a L R).Pairwise (fun x y => D.le x y = true) := by
  rw [List.pairwise_iff_getElem]
  intro i j hi hj hij
  have hlen := extract_length a L R
  have hgi : (extract a L R)[i]? = some ((extract a L R)[i]) := List.getElem?_eq_getElem hi
  have hgj : (extract a L R)[j]? = some ((extract a L R)[j]) := List.getElem?_eq_getElem hj
  rw [extract_getElem?, if_pos (by omega)] at hgi
  rw [extract_getElem?, if_pos (by omega)] at hgj
  have hii : getI a (L + i) = some ((extract a L R)[i]) := by
    unfold getI
    rw [if_pos (by omega)]
    have he : (L + (i : Int)).toNat = L.toNat + i := by omega
    rw [he]
    exact hgi
  have hjj : getI a (L + j) = some ((extract a L R)[j]) := by
    unfold getI
    rw [if_pos (by omega)]
    have he : (L + (j : Int)).toNat = L.toNat + j := by omega
    rw [he]
    exact hgj
  exact h (L + i) (L + j) _ _ (by omega) (by omega) (by omega) hii hjj

theorem eq_of_agree_outside_and_extract {β : Type} {b c : List β} {L R : Int}
    (h0 : 0 ≤ L) (h1 : L ≤ R + 1)
    (hout : ∀ i : Int, i < L ∨ R < i → getI b i = getI c i)
    (hex : extract b L R = extract c L R) : b = c := by
  rw [extract_decomp b L R h0 h1, extract_decomp c L R h0 h1, hex,
    take_eq_of_agree (fun i hi => hout i (Or.inl hi)),
    drop_eq_of_agree (fun i hi => hout i (Or.inr hi))]

theorem sortF_fuel_eq {a : List (D α)} {L R : Int}
    (hnn : RangeOK a L R) (hL0 : 0 ≤ L) (hR : R < (a.length : Int)) {f1 f2 : Nat}
    (h1 : (R - L).toNat < f1) (h2 : (R - L).toNat < f2) :
    sortF f1 a L R = sortF f2 a L R := by
  by_cases hLR : L ≤ R + 1
  · obtain ⟨b1, hb1, hl1, hp1, ho1, hs1⟩ := sortF_correct f1 a L R hnn hL0 hR h1
    obtain ⟨b2, hb2, hl2, hp2, ho2, hs2⟩ := sortF_correct f2 a L R hnn hL0 hR h2
    rw [hb1, hb2]
    congr 1
    apply eq_of_agree_outside_and_extract hL0 hLR
      (fun i hi => (ho1 i hi).trans (ho2 i hi).symm)
    have hsort1 := sortedRange_pairwise hL0 hs1
    have hsort2 := sortedRange_pairwise hL0 hs2
    exact List.eq_of_perm_of_sorted
      (extract_perm (hp1.trans hp2.symm)
        (fun i hi => (ho1 i hi).trans (ho2 i hi).symm) hL0 hLR) hsort1 hsort2
  · have he : ∀ f : Nat, 0 < f → sortF f a L R = some a := by
      intro f hf
      cases f with
      | zero => omega
      | succ f =>
        simp only [sortF]
        rw [if_neg (by omega)]
        simp only [insOuter]
        rw [if_neg (by omega)]
        rfl
    rw [he f1 (by omega), he f2 (by omega)]

theorem sortF_eq_rc_sort {a : List (D α)} {L R : Int}
    (hnn : RangeOK a L R) (hL0 : 0 ≤ L) (hR : R < (a.length : Int)) {f : Nat}
    (hf : (R - L).toNat < f) :
    sortF f a L R = rc_sort a L R :=
  sortF_fuel_eq hnn hL0 hR hf (by omega)

/-! ### The accumulation loop as a fold -/

theorem extract_empty {β : Type} (a : List β) {L R : Int} (h : R + 1 ≤ L) :
    extract a L R = [] := by
  unfold extract
  have he : (R + 1 - L).toNat = 0 := by omega
  rw [he, List.take_zero]

theorem extract_cons {β : Type} {a : List β} {L R : Int} {x : β}
    (h : getI a L = some x) (hLR : L ≤ R) :
    extract a L R = x :: extract a (L+1) R := by
  obtain ⟨h0, hlen, hv⟩ := getI_eq_some h
  obtain ⟨hlt, heq⟩ := List.getElem?_eq_some.mp hv
  unfold extract
  have hd : a.drop L.toNat = x :: a.drop (L.toNat + 1) := by
    rw [List.drop_eq_getElem_cons hlt, heq]
  rw [hd]
  have ht : (R + 1 - L).toNat = ((R + 1 - (L+1)).toNat) + 1 := by omega
  have he : (L + 1).toNat = L.toNat + 1 := by omega
  rw [ht, List.take_succ_cons, he]

theorem extract_full (a : List (D α)) :
    extract a 0 ((a.length : Int) - 1) = a := by
  unfold extract
  have h2 : ((a.length : Int) - 1 + 1 - 0) = (a.length : Int) := by ring
  rw [h2]
  simp

/-- The shifted-exponential accumulation `sum += exp(x - m)` over `xs`,
starting from `0.0`, in left-to-right order as the C loop performs it. -/
def shiftExpSum (rexp : α → α) (m : D α) (xs : List (D α)) : D α :=
  xs.foldl (fun acc x => D.add acc (D.exp rexp (D.sub x m))) (D.fin 0)

theorem sumLoop_spec (rexp : α → α) (la : List (D α)) (last : D α) (n : Int)
    (hn : n ≤ (la.length : Int)) :
    ∀ fuel (i : Int) (s : D α), 0 ≤ i → (n - i).toNat < fuel →
    sumLoop rexp la last n fuel i s =
      some ((extract la i (n-1)).foldl
        (fun acc x => D.add acc (D.exp rexp (D.sub x last))) s) := by
  intro fuel
  induction fuel with
  | zero => intro i s _ h; omega
  | succ fuel ih =>
    intro i s h0 hfuel
    by_cases hin : i < n
    · obtain ⟨x, hx⟩ := getI_pos (a := la) (i := i) h0 (by omega)
      have hcons : extract la i (n-1) = x :: extract la (i+1) (n-1) :=
        extract_cons hx (by omega)
      simp only [sumLoop, Option.bind_eq_bind]
      rw [if_pos hin, hx]
      simp only [Option.some_bind]
      rw [ih (i+1) _ (by omega) (by omega), hcons, List.foldl_cons]
    · simp only [sumLoop]
      rw [if_neg hin, extract_empty _ (by omega), List.foldl_nil]
      rfl

/-! ### Miscellaneous facts about `D` values -/

theorem D.le_nan_false (x : D α) : D.le x D.nan = false := by
  cases x <;> simp [D.le]

theorem D.nan_le_false (x : D α) : D.le D.nan x = false := by
  cases x <;> simp [D.le]

theorem D.isNegInf_false {m : D α} (h : m ≠ D.negInf) : D.isNegInf m = false := by
  cases m <;> simp_all [D.isNegInf]

/-- A range of at least two elements that is in non-decreasing IEEE order
contains no NaN: every element takes part in a true `<=` comparison, and
`<=` never holds for NaN. -/
theorem rangeOK_of_sorted {s : List (D α)} {L R : Int}
    (hso : SortedRange s L R) (h2 : L < R) (hR : R < (s.length : Int)) (hL : 0 ≤ L) :
    RangeOK s L R := by
  intro i x h1 hiR hx
  intro hxe
  subst hxe
  by_cases hiL : i = L
  · obtain ⟨y, hy⟩ := getI_pos (a := s) (i := R) (by omega) hR
    have := hso i R D.nan y (by omega) (by omega) (le_refl R) hx hy
    rw [D.nan_le_false] at this
    exact Bool.true_eq_false.mp this.symm
  · obtain ⟨y, hy⟩ := getI_pos (a := s) (i := L) hL (by omega)
    have := hso L i y D.nan (le_refl L) (by omega) hiR hy hx
    rw [D.le_nan_false] at this
    exact Bool.true_eq_false.mp this.symm

theorem rc_logsumexp_eq (rexp rlog : α → α) (a b : List (D α)) (N : Int)
    (hsort : rc_sort a 0 (N - 1) = some b)
    (m : D α) (hm : getI b (N - 1) = some m) (hmni : D.isNegInf m = false)
    (hlen : N - 1 ≤ (b.length : Int)) :
    rc_logsumexp rexp rlog a N =
      some (D.add m (D.log rlog
        (D.add (shiftExpSum rexp m (extract b 0 (N-2))) (D.fin 1)))) := by
  unfold rc_logsumexp
  rw [hsort]
  simp only [Option.bind_eq_bind, Option.some_bind]
  rw [hm]
  simp only [Option.some_bind]
  rw [if_neg (by simp [hmni])]
  rw [sumLoop_spec rexp b m (N-1) hlen ((N-1).toNat + 1) 0 (D.fin 0) (le_refl 0) (by omega)]
  simp only [Option.some_bind]
  have he : N - 1 - 1 = N - 2 := by ring
  rw [he]
  rfl

/-! ### The claims -/

/-- C8: for every array and every pair of indices with `L > R` (an empty or
inverted range), `rc_sort(array, L, R)` is a no-op that performs no array
access: it returns the array unchanged (`some`, i.e. no out-of-bounds read
or write occurs) for arbitrary arrays, including arrays on which any access
at all would be out of bounds. -/
theorem C8_empty_range_noop (a : List (D α)) (L R : Int) (h : L > R) :
    rc_sort a L R = some a :=
  rc_sort_noop (by omega)

theorem C8_empty_range_noop_witness :
    rc_sort ([] : List (D ℚ)) 100 3 = some [] :=
  C8_empty_range_noop [] 100 3 (by decide)

/-- C3: with a valid array of length `N`, `rc_logsumexp` performs only
in-bounds accesses (returns `some`) exactly when `N ≥ 1`; for `N ≤ 0` the
read of `array[N-1]` (i.e. `array[-1]` for `N = 0`) is out of bounds and
the embedding returns `none`. -/
theorem C3_access_bounds (rexp rlog : α → α) (a : List (D α)) (N : Int)
    (hlen : (a.length : Int) = N) :
    (∃ y, rc_logsumexp rexp rlog a N = some y) ↔ 1 ≤ N := by
  constructor
  · rintro ⟨y, hy⟩
    by_contra hN
    push_neg at hN
    have hsort : rc_sort a 0 (N-1) = some a := rc_sort_noop (by omega)
    unfold rc_logsumexp at hy
    rw [hsort] at hy
    simp only [Option.bind_eq_bind, Option.some_bind] at hy
    have hget : getI a (N-1) = none := by
      unfold getI
      rw [if_neg (by omega)]
    rw [hget] at hy
    simp at hy
  · intro hN
    obtain ⟨b, hb, hblen⟩ :=
      rc_sort_some (a := a) (L := 0) (R := N - 1) (le_refl 0) (by omega)
    obtain ⟨m, hm⟩ := getI_pos (a := b) (i := N-1) (by omega) (by omega)
    cases hmi : D.isNegInf m with
    | false =>
      exact ⟨_, rc_logsumexp_eq rexp rlog a b N hb m hm hmi (by omega)⟩
    | true =>
      refine ⟨D.negInf, ?_⟩
      unfold rc_logsumexp
      rw [hb]
      simp only [Option.bind_eq_bind, Option.some_bind]
      rw [hm]
      simp only [Option.some_bind]
      rw [if_pos hmi]
      rfl

theorem C3_access_bounds_witness :
    ((∃ y, rc_logsumexp (fun q : ℚ => q) (fun q => q) [D.fin 2, D.nan] 2 = some y) ↔
      (1:Int) ≤ 2) ∧
    ((∃ y, rc_logsumexp (fun q : ℚ => q) (fun q => q) ([] : List (D ℚ)) 0 = some y) ↔
      (1:Int) ≤ 0) :=
  ⟨C3_access_bounds (fun q => q) (fun q => q) [D.fin 2, D.nan] 2 (by decide),
   C3_access_bounds (fun q => q) (fun q => q) [] 0 (by decide)⟩

/-- C9: `rc_sort` is idempotent on sorted input: if the (valid) range
`[L, R]` is already in non-decreasing order, the call returns the array
exactly unchanged. -/
theorem C9_idempotent (a : List (D α)) (L R : Int)
    (hL0 : 0 ≤ L) (hR : R < (a.length : Int)) (hsorted : SortedRange a L R) :
    rc_sort a L R = some a := by
  by_cases hLR : R ≤ L
  · exact rc_sort_noop hLR
  · push_neg at hLR
    have hok : RangeOK a L R := rangeOK_of_sorted hsorted hLR hR hL0
    obtain ⟨b, hb, hblen, hbperm, hbout, hbsorted⟩ := rc_sort_correct hok hL0 hR
    rw [hb]
    congr 1
    apply eq_of_agree_outside_and_extract hL0 (by omega) hbout
    exact List.eq_of_perm_of_sorted (extract_perm hbperm hbout hL0 (by omega))
      (sortedRange_pairwise hL0 hbsorted) (sortedRange_pairwise hL0 hsorted)

theorem C9_idempotent_witness :
    rc_sort [D.fin (1:ℚ), D.fin 2] 0 1 = some [D.fin 1, D.fin 2] := by
  apply C9_idempotent [D.fin (1:ℚ), D.fin 2] 0 1 (by decide) (by decide)
  intro i j x y h1 h2 h3 hx hy
  have hij : i = 0 ∧ j = 1 := by omega
  obtain ⟨hi, hj⟩ := hij
  subst hi
  subst hj
  have e1 : getI [D.fin (1:ℚ), D.fin 2] 0 = some (D.fin 1) := by decide
  have e2 : getI [D.fin (1:ℚ), D.fin 2] 1 = some (D.fin 2) := by decide
  rw [e1] at hx
  rw [e2] at hy
  cases hx
  cases hy
  decide

/-- C2 (amended): for every array, every inclusive range `[L, R]` within
the array's bounds whose elements contain no NaN, `rc_sort` succeeds and
afterwards the elements at `[L, R]` are in non-decreasing order, form the
same multiset as before, and the elements outside `[L, R]` are untouched.
(The original claim, over arrays that may contain NaN in the range, is
refuted by the accompanying counterexample.) -/
theorem C2_sort_correct (a : List (D α)) (L R : Int)
    (h0 : 0 ≤ L) (hR : R < (a.length : Int)) (hok : RangeOK a L R) :
    ∃ b, rc_sort a L R = some b ∧ SortedRange b L R ∧
      extract b L R ~ extract a L R ∧
      (∀ i : Int, i < L ∨ R < i → getI b i = getI a i) := by
  obtain ⟨b, hb, hblen, hbperm, hbout, hbsorted⟩ := rc_sort_correct hok h0 hR
  refine ⟨b, hb, hbsorted, ?_, hbout⟩
  by_cases hLR : L ≤ R + 1
  · exact extract_perm hbperm hbout h0 hLR
  · rw [extract_empty b (by omega), extract_empty a (by omega)]

theorem C2_sort_correct_witness :
    ∃ b, rc_sort [D.fin (3:ℚ), D.fin 1, D.fin 2] 0 2 = some b ∧
      SortedRange b 0 2 ∧
      extract b 0 2 ~ extract [D.fin (3:ℚ), D.fin 1, D.fin 2] 0 2 ∧
      (∀ i : Int, i < 0 ∨ 2 < i →
        getI b i = getI [D.fin (3:ℚ), D.fin 1, D.fin 2] i) :=
  C2_sort_correct [D.fin 3, D.fin 1, D.fin 2] 0 2 (by decide) (by decide)
    (rangeOK_of_not_mem (by decide))

/-- C2 counterexample: on the array `[NaN, 0.0]` the sort leaves the array
unchanged, and the resulting range `[0, 1]` is not in non-decreasing order
(no IEEE comparison involving NaN holds), refuting the claim as stated for
arbitrary double arrays. -/
theorem C2_sort_counterexample :
    rc_sort [D.nan, D.fin (0:ℚ)] 0 1 = some [D.nan, D.fin 0] ∧
    ¬ SortedRange [D.nan, D.fin (0:ℚ)] 0 1 := by
  constructor
  · decide
  · intro h
    have := h 0 1 D.nan (D.fin 0) (le_refl 0) (by decide) (le_refl 1)
      (by decide) (by decide)
    exact absurd this (by decide)

/-- C4: for any length `N ≥ 1`, an all-negative-infinity array makes
`rc_logsumexp` return negative infinity via the short-circuit branch (so no
`log(0)` or `exp(-inf - (-inf))` is evaluated); and
`rc_logsumexp_pair(-inf, -inf) = -inf`, `rc_logsumexp_pair(-inf, 5.0) = 5.0`
exactly. -/
theorem C4_all_neginf (rexp rlog : α → α) (hlog1 : rlog 1 = 0) :
    (∀ (a : List (D α)) (N : Int), (a.length : Int) = N → 1 ≤ N →
        (∀ x ∈ a, x = D.negInf) → rc_logsumexp rexp rlog a N = some D.negInf) ∧
    rc_logsumexp_pair rexp rlog (D.negInf : D α) D.negInf = D.negInf ∧
    rc_logsumexp_pair rexp rlog (D.negInf : D α) (D.fin 5) = D.fin 5 := by
  refine ⟨?_, ?_, ?_⟩
  · intro a N hlen hN hall
    have hok : RangeOK a 0 (N-1) := rangeOK_of_not_mem (fun hmem => by
      have := hall D.nan hmem
      simp at this)
    obtain ⟨b, hb, hblen, hbperm, _, _⟩ :=
      rc_sort_correct (a := a) (L := 0) (R := N - 1) hok (le_refl 0) (by omega)
    obtain ⟨m, hm⟩ := getI_pos (a := b) (i := N-1) (by omega) (by omega)
    have hmem : m ∈ a := hbperm.mem_iff.mp (getI_mem hm)
    have hmni : m = D.negInf := hall m hmem
    subst hmni
    unfold rc_logsumexp
    rw [hb]
    simp only [Option.bind_eq_bind, Option.some_bind]
    rw [hm]
    simp only [Option.some_bind]
    simp [D.isNegInf]
  · simp [rc_logsumexp_pair, D.isNegInf]
  · simp [rc_logsumexp_pair, D.isNegInf, D.lt, D.sub, D.exp, D.add, D.log, hlog1]

theorem C4_all_neginf_witness :
    ((fun _ : ℚ => (0:ℚ)) 1 = 0) ∧
    (rc_logsumexp (fun q : ℚ => q) (fun _ => 0) [D.negInf, D.negInf, D.negInf] 3 =
      some D.negInf) := by
  refine ⟨rfl, ?_⟩
  exact (C4_all_neginf (fun q : ℚ => q) (fun _ => 0) rfl).1
    [D.negInf, D.negInf, D.negInf] 3 (by decide) (by decide)
    (by intro x hx; simp at hx; exact hx)

/-- C5: on a single-element array `[x]` with finite `x`, `rc_logsumexp`
returns exactly `x`: the loop runs zero times, `sum` stays `0.0`, and
`x + log(0.0 + 1.0) = x + 0 = x` with no rounding in the model
(`log 1 = 0` exactly). -/
theorem C5_single (rexp rlog : α → α) (hlog1 : rlog 1 = 0) (x : α) :
    rc_logsumexp rexp rlog [D.fin x] 1 = some (D.fin x) := by
  have hsort : rc_sort [D.fin x] 0 ((1:Int) - 1) = some [D.fin x] :=
    rc_sort_noop (by omega)
  have hm : getI [D.fin x] ((1:Int) - 1) = some (D.fin x) := by
    rw [show (1:Int) - 1 = 0 by ring]
    rw [getI_eq_getElem (le_refl 0) (by simp)]
    rfl
  rw [rc_logsumexp_eq rexp rlog [D.fin x] [D.fin x] 1 hsort (D.fin x) hm
    (by simp [D.isNegInf]) (by simp)]
  rw [extract_empty _ (by omega)]
  simp [shiftExpSum, D.add, D.log, hlog1]

theorem C5_single_witness :
    rc_logsumexp (fun q : ℚ => q) (fun _ => 0) [D.fin (37:ℚ)] 1 =
      some (D.fin 37) :=
  C5_single (fun q : ℚ => q) (fun _ => 0) rfl 37

/-- C10: `rc_logsumexp_pair` is commutative for non-NaN arguments: both
orders select the same anchor and evaluate the same expression. -/
theorem C10_pair_comm (rexp rlog : α → α) (a b : D α)
    (ha : a ≠ D.nan) (hb : b ≠ D.nan) :
    rc_logsumexp_pair rexp rlog a b = rc_logsumexp_pair rexp rlog b a := by
  unfold rc_logsumexp_pair
  cases a with
  | nan => exact absurd rfl ha
  | negInf =>
    cases b <;> simp_all [D.isNegInf, D.lt]
  | posInf =>
    cases b <;> simp_all [D.isNegInf, D.lt]
  | fin p =>
    cases b with
    | nan => exact absurd rfl hb
    | negInf => simp_all [D.isNegInf, D.lt]
    | posInf => simp_all [D.isNegInf, D.lt]
    | fin q =>
      rcases lt_trichotomy p q with h | h | h
      · have h2 : ¬ q < p := asymm h
        simp [D.isNegInf, D.lt, h, h2]
      · subst h
        simp [D.isNegInf, D.lt]
      · have h2 : ¬ p < q := asymm h
        simp [D.isNegInf, D.lt, h, h2]

theorem C10_pair_comm_witness :
    rc_logsumexp_pair (fun q : ℚ => q) (fun q => q) (D.fin 1) (D.fin 2) =
      rc_logsumexp_pair (fun q : ℚ => q) (fun q => q) (D.fin 2) (D.fin 1) :=
  C10_pair_comm (fun q : ℚ => q) (fun q => q) (D.fin 1) (D.fin 2)
    (by decide) (by decide)

theorem rc_sort_two_fin (p q : α) :
    rc_sort [D.fin p, D.fin q] 0 1 =
      some (if q < p then [D.fin q, D.fin p] else [D.fin p, D.fin q]) := by
  have hok : RangeOK [D.fin p, D.fin q] 0 1 := rangeOK_of_not_mem (by simp)
  obtain ⟨b, hb, hblen, hbperm, hbout, hbsorted⟩ :=
    rc_sort_correct hok (le_refl 0) (by simp)
  rw [hb]
  congr 1
  have hlen2 : b.length = 2 := by simpa using hblen
  have houtside : ∀ (t : List (D α)), t.length = 2 →
      ∀ i : Int, i < 0 ∨ 1 < i → getI b i = getI t i := by
    intro t hlt i hi
    rcases hi with hi | hi
    · unfold getI
      rw [if_neg (by omega), if_neg (by omega)]
    · unfold getI
      rw [if_pos (by omega), if_pos (by omega)]
      rw [List.getElem?_eq_none (by omega), List.getElem?_eq_none (by omega)]
  have hfull : extract b 0 1 = b := by
    have he : ((b.length : Int) - 1) = 1 := by omega
    rw [← he, extract_full]
  by_cases hqp : q < p
  · rw [if_pos hqp]
    have htperm : b ~ [D.fin q, D.fin p] :=
      hbperm.trans (List.Perm.swap (D.fin q) (D.fin p) [])
    have htsorted : (extract [D.fin q, D.fin p] 0 1).Pairwise
        (fun x y => D.le x y = true) := by
      have : extract [D.fin q, D.fin p] 0 (1 : Int) = [D.fin q, D.fin p] := by
        have he : (([D.fin q, D.fin p].length : Int) - 1) = 1 := by simp
        rw [← he, extract_full]
      rw [this]
      refine List.Pairwise.cons ?_ (by simp)
      intro z hz
      simp at hz
      subst hz
      simp [D.le]
      exact le_of_lt hqp
    apply eq_of_agree_outside_and_extract (le_refl 0) (by omega)
      (houtside _ (by simp))
    have hexr : extract [D.fin q, D.fin p] 0 (1:Int) = [D.fin q, D.fin p] := by
      have he : (([D.fin q, D.fin p].length : Int) - 1) = 1 := by simp
      rw [← he, extract_full]
    have hsb : (extract b 0 (1:Int)).Pairwise (fun x y => D.le x y = true) :=
      sortedRange_pairwise (le_refl 0) hbsorted
    have hpe : extract b 0 (1:Int) ~ extract [D.fin q, D.fin p] 0 1 := by
      rw [hfull, hexr]
      exact htperm
    have hts2 : (extract [D.fin q, D.fin p] 0 (1:Int)).Pairwise
        (fun x y => D.le x y = true) := htsorted
    exact List.eq_of_perm_of_sorted hpe hsb hts2
  · rw [if_neg hqp]
    have htsorted : (extract [D.fin p, D.fin q] 0 1).Pairwise
        (fun x y => D.le x y = true) := by
      have hexr : extract [D.fin p, D.fin q] 0 (1 : Int) = [D.fin p, D.fin q] := by
        have he : (([D.fin p, D.fin q].length : Int) - 1) = 1 := by simp
        rw [← he, extract_full]
      rw [hexr]
      refine List.Pairwise.cons ?_ (by simp)
      intro z hz
      simp at hz
      subst hz
      simp [D.le]
      exact not_lt.mp hqp
    apply eq_of_agree_outside_and_extract (le_refl 0) (by omega)
      (houtside _ (by simp))
    have hexr : extract [D.fin p, D.fin q] 0 (1:Int) = [D.fin p, D.fin q] := by
      have he : (([D.fin p, D.fin q].length : Int) - 1) = 1 := by simp
      rw [← he, extract_full]
    have hsb : (extract b 0 (1:Int)).Pairwise (fun x y => D.le x y = true) :=
      sortedRange_pairwise (le_refl 0) hbsorted
    have hpe : extract b 0 (1:Int) ~ extract [D.fin p, D.fin q] 0 1 := by
      rw [hfull, hexr]
      exact hbperm
    exact List.eq_of_perm_of_sorted hpe hsb htsorted

theorem D.add_zero_one (z : D α) :
    D.add (D.add (D.fin 0) z) (D.fin 1) = D.add (D.fin 1) z := by
  cases z <;> simp [D.add] <;> ring

/-- C6: `rc_logsumexp_pair(a, b)` agrees with `rc_logsumexp([a, b], 2)` for
all finite `a`, `b` — in the idealized model the two computations are
exactly equal: both reduce to `max + log(1 + exp(min - max))` up to
commutativity of the final addition. -/
theorem C6_pair_array_agree (rexp rlog : α → α) (p q : α) :
    rc_logsumexp rexp rlog [D.fin p, D.fin q] 2 =
      some (rc_logsumexp_pair rexp rlog (D.fin p) (D.fin q)) := by
  have h21 : (2:Int) - 1 = 1 := by ring
  by_cases hqp : q < p
  · have hsort : rc_sort [D.fin p, D.fin q] 0 ((2:Int) - 1) = some [D.fin q, D.fin p] := by
      rw [h21, rc_sort_two_fin, if_pos hqp]
    have hm : getI [D.fin q, D.fin p] ((2:Int) - 1) = some (D.fin p) := by
      rw [h21, getI_eq_getElem (by omega) (by simp)]
      rfl
    rw [rc_logsumexp_eq rexp rlog _ _ 2 hsort (D.fin p) hm (by simp [D.isNegInf]) (by simp)]
    have hex : extract [D.fin q, D.fin p] 0 ((2:Int) - 2) = [D.fin q] := by
      rw [show (2:Int) - 2 = 0 by ring]
      rfl
    rw [hex]
    have hpair : rc_logsumexp_pair rexp rlog (D.fin p) (D.fin q) =
        D.add (D.fin p) (D.log rlog (D.add (D.fin 1)
          (D.exp rexp (D.sub (D.fin q) (D.fin p))))) := by
      unfold rc_logsumexp_pair
      rw [if_neg (by simp [D.isNegInf]), if_neg (by simp [D.lt]; exact le_of_lt hqp)]
    rw [hpair]
    have hs : shiftExpSum rexp (D.fin p) [D.fin q] =
        D.add (D.fin 0) (D.exp rexp (D.sub (D.fin q) (D.fin p))) := by
      simp [shiftExpSum]
    rw [hs, D.add_zero_one]
  · have hsort : rc_sort [D.fin p, D.fin q] 0 ((2:Int) - 1) = some [D.fin p, D.fin q] := by
      rw [h21, rc_sort_two_fin, if_neg hqp]
    have hm : getI [D.fin p, D.fin q] ((2:Int) - 1) = some (D.fin q) := by
      rw [h21, getI_eq_getElem (by omega) (by simp)]
      rfl
    rw [rc_logsumexp_eq rexp rlog _ _ 2 hsort (D.fin q) hm (by simp [D.isNegInf]) (by simp)]
    have hex : extract [D.fin p, D.fin q] 0 ((2:Int) - 2) = [D.fin p] := by
      rw [show (2:Int) - 2 = 0 by ring]
      rfl
    rw [hex]
    have hpair : rc_logsumexp_pair rexp rlog (D.fin p) (D.fin q) =
        D.add (D.fin q) (D.log rlog (D.add (D.fin 1)
          (D.exp rexp (D.sub (D.fin p) (D.fin q))))) := by
      unfold rc_logsumexp_pair
      rw [if_neg (by simp [D.isNegInf])]
      rcases eq_or_lt_of_le (not_lt.mp hqp) with heq | hlt
      · subst heq
        rw [if_neg (by simp [D.lt])]
      · rw [if_pos (by simp [D.lt, hlt])]
    rw [hpair]
    have hs : shiftExpSum rexp (D.fin q) [D.fin p] =
        D.add (D.fin 0) (D.exp rexp (D.sub (D.fin p) (D.fin q))) := by
      simp [shiftExpSum]
    rw [hs, D.add_zero_one]

theorem C6_pair_array_agree_witness :
    rc_logsumexp (fun q : ℚ => q) (fun q => q) [D.fin (1:ℚ), D.fin 2] 2 =
      some (rc_logsumexp_pair (fun q : ℚ => q) (fun q => q) (D.fin 1) (D.fin 2)) :=
  C6_pair_array_agree (fun q : ℚ => q) (fun q => q) 1 2

/-- C1: for an array of length `N ≥ 1` whose non-decreasing reordering `s`
has a last (maximal) element that is not negative infinity, `rc_logsumexp`
returns `s[N-1] + log(sum + 1.0)` with
`sum = Σ exp(s[i] - s[N-1])` accumulated over `i = 0 .. N-2` (every sorted
element except the last; the `+1.0` stands for the max element's own
`exp(0) = 1`). -/
theorem C1_logsumexp_formula (rexp rlog : α → α) (a s : List (D α)) (N : Int)
    (hlen : (a.length : Int) = N) (hN : 1 ≤ N)
    (hs : s ~ a) (hsorted : SortedRange s 0 (N - 1))
    (m : D α) (hm : getI s (N - 1) = some m) (hmne : m ≠ D.negInf) :
    rc_logsumexp rexp rlog a N =
      some (D.add m (D.log rlog
        (D.add (shiftExpSum rexp m (extract s 0 (N - 2))) (D.fin 1)))) := by
  have hslen : (s.length : Int) = N := by rw [hs.length_eq]; exact hlen
  have hsort : rc_sort a 0 (N - 1) = some s := by
    by_cases h1 : N = 1
    · subst h1
      obtain ⟨x, hx⟩ := List.length_eq_one.mp (show a.length = 1 by omega)
      subst hx
      have hsx : s = [x] := List.perm_singleton.mp hs
      rw [hsx]
      exact rc_sort_noop (by omega)
    · have hok : RangeOK s 0 (N-1) :=
        rangeOK_of_sorted hsorted (by omega) (by omega) (le_refl 0)
      have hoka : RangeOK a 0 (N-1) := by
        intro i x h1i h2i hx hxe
        subst hxe
        have hmem : D.nan ∈ s := hs.mem_iff.mpr (getI_mem hx)
        obtain ⟨k, hk⟩ := List.mem_iff_getElem?.mp hmem
        obtain ⟨hklt, _⟩ := List.getElem?_eq_some.mp hk
        have hgI : getI s (k : Int) = some D.nan := by
          unfold getI
          rw [if_pos (by omega)]
          simpa using hk
        exact hok k D.nan (by omega) (by omega) hgI rfl
      obtain ⟨b, hb, hblen, hbperm, hbout, hbsorted⟩ :=
        rc_sort_correct (a := a) (L := 0) (R := N-1) hoka (le_refl 0) (by omega)
      have hbl : (b.length : Int) = N := by rw [hblen]; exact hlen
      have hbs : b = s := by
        have hp1 := sortedRange_pairwise (le_refl 0) hbsorted
        rw [show (N - 1 : Int) = (b.length : Int) - 1 by omega, extract_full] at hp1
        have hp2 := sortedRange_pairwise (le_refl 0) hsorted
        rw [show (N - 1 : Int) = (s.length : Int) - 1 by omega, extract_full] at hp2
        exact List.eq_of_perm_of_sorted (hbperm.trans hs.symm) hp1 hp2
      rw [hbs] at hb
      exact hb
  exact rc_logsumexp_eq rexp rlog a s N hsort m hm (D.isNegInf_false hmne) (by omega)

theorem C1_logsumexp_formula_witness :
    rc_logsumexp (fun q : ℚ => q) (fun q => q) [D.fin (1:ℚ), D.fin 0] 2 =
      some (D.add (D.fin 1) (D.log (fun q : ℚ => q)
        (D.add (shiftExpSum (fun q : ℚ => q) (D.fin 1)
          (extract [D.fin (0:ℚ), D.fin 1] 0 0)) (D.fin 1)))) := by
  apply C1_logsumexp_formula (fun q : ℚ => q) (fun q => q)
    [D.fin 1, D.fin 0] [D.fin 0, D.fin 1] 2 (by decide) (by decide)
    (by decide) ?_ (D.fin 1) (by decide) (by decide)
  intro i j x y h1 h2 h3 hx hy
  have hij : i = 0 ∧ j = 1 := by omega
  obtain ⟨hi, hj⟩ := hij
  subst hi
  subst hj
  have e1 : getI [D.fin (0:ℚ), D.fin 1] 0 = some (D.fin 0) := by decide
  have e2 : getI [D.fin (0:ℚ), D.fin 1] 1 = some (D.fin 1) := by decide
  rw [e1] at hx
  rw [e2] at hy
  cases hx
  cases hy
  decide

/-- C7 (amended): in the quicksort branch (`R - L > 25`), on a range whose
elements contain no NaN, the element initially at index `R` is the pivot;
after the partition phase (scan loop plus final swap of `array[l]` with
`array[R]`) the pivot value sits at index `l`, every element of `[L, l-1]`
is `<=` it, every element of `[l+1, R]` is `>=` it, the array is a
permutation of the input, and the recursion is exactly `rc_sort` on
`[L, l-1]` followed by `rc_sort` on `[l+1, R]`.  (Without the no-NaN
restriction the `>=`-pivot region property fails on a NaN-bearing
input.) -/
theorem C7_partition (a : List (D α)) (L R : Int)
    (hok : RangeOK a L R) (hL0 : 0 ≤ L) (hR : R < (a.length : Int))
    (hqs : R - L > 25) :
    ∃ p a2 l, getI a R = some p ∧ partitionStep a L R = some (a2, l) ∧
      L ≤ l ∧ l ≤ R ∧ a2 ~ a ∧
      getI a2 l = some p ∧
      (∀ i x, L ≤ i → i ≤ l - 1 → getI a2 i = some x → D.le x p = true) ∧
      (∀ i x, l + 1 ≤ i → i ≤ R → getI a2 i = some x → D.le p x = true) ∧
      rc_sort a L R = (rc_sort a2 L (l - 1)).bind (fun a3 => rc_sort a3 (l + 1) R) := by
  obtain ⟨piv, hpiv⟩ := getI_pos (a := a) (i := R) (by omega) hR
  obtain ⟨a1, l, hqloop, ha1len, ha1perm, ha1out, hLl, hlR, hleft, hright, xl, hxl, hxlge⟩ :=
    qloop_spec L R piv (a.length + 1) a (L-1) R hok hpiv hL0 (le_refl (L-1))
      (by omega) (le_refl R) (by omega) hR
      (fun i x h1 h2 _ => absurd h2 (by omega))
      (fun i x h1 h2 _ => absurd h1 (by omega))
      (by omega)
  have ha1piv : getI a1 R = some piv := by
    rw [ha1out R (by omega)]
    exact hpiv
  obtain ⟨a2, hswap, _⟩ := swapI_some (a := a1) (i := l) (j := R)
    (by omega) (by omega) (by omega) (by omega)
  obtain ⟨ha2len, ha2perm, _, _, _, _, ha2l, ha2R, ha2other⟩ := swapI_props hswap
  rw [ha1piv] at ha2l
  rw [hxl] at ha2R
  have hps : partitionStep a L R = some (a2, l) := by
    unfold partitionStep
    rw [hqloop]
    simp only [Option.bind_eq_bind, Option.some_bind]
    rw [hswap]
    simp only [Option.some_bind]
    rfl
  have ha1ok : RangeOK a1 L R := by
    have hep : extract a1 L R ~ extract a L R :=
      extract_perm ha1perm
        (fun i hi => ha1out i (by rcases hi with h | h; exact Or.inl h; exact Or.inr (by omega)))
        hL0 (by omega)
    exact region_all hep hL0 hok
  have ha2ok : RangeOK a2 L R := by
    intro i x h1 h2 hx
    by_cases hil : i = l
    · subst hil
      rw [ha2l] at hx
      cases hx
      exact hok R piv (by omega) (le_refl R) hpiv
    · by_cases hiR : i = R
      · subst hiR
        rw [ha2R] at hx
        cases hx
        exact ha1ok l xl (by omega) (by omega) hxl
      · rw [ha2other i hil hiR] at hx
        exact ha1ok i x h1 h2 hx
  have ha2left : ∀ i x, L ≤ i → i ≤ l - 1 → getI a2 i = some x → D.le x piv = true := by
    intro i x h1 h2 hx
    rw [ha2other i (by omega) (by omega)] at hx
    exact hleft i x h1 h2 hx
  have ha2right : ∀ i x, l + 1 ≤ i → i ≤ R → getI a2 i = some x → D.le piv x = true := by
    intro i x h1 h2 hx
    by_cases hiR : i = R
    · subst hiR
      rw [ha2R] at hx
      cases hx
      exact hxlge
    · rw [ha2other i (by omega) (by omega)] at hx
      exact hright i x h1 (by omega) hx
  refine ⟨piv, a2, l, hpiv, hps, by omega, hlR, ha2perm.trans ha1perm, ha2l,
    ha2left, ha2right, ?_⟩
  -- the recursion equation
  obtain ⟨a3, hc1, ha3len, ha3perm, ha3out, ha3sorted⟩ :=
    rc_sort_correct (a := a2) (L := L) (R := l - 1)
      (rangeOK_mono ha2ok (le_refl L) (by omega)) hL0 (by omega)
  have ha3ok : RangeOK a3 (l+1) R := by
    intro i x h1 h2 hx
    rw [ha3out i (by omega)] at hx
    exact ha2ok i x (by omega) h2 hx
  have hu : rc_sort a L R = sortF ((R - L).toNat + 1) a L R := rfl
  rw [hu]
  simp only [sortF, Option.bind_eq_bind]
  rw [if_pos hqs, hps]
  simp only [Option.some_bind]
  rw [sortF_eq_rc_sort (rangeOK_mono ha2ok (le_refl L) (by omega)) hL0 (by omega) (by omega)]
  rw [hc1]
  simp only [Option.some_bind, Option.bind_eq_bind]
  exact sortF_eq_rc_sort ha3ok (by omega)
    (by rw [ha3len, ha2len, ha1len]; exact hR) (by omega)

/-- The concrete input refuting C7 as stated: a NaN among 26 copies of
`-1.0` with pivot `0.0`. -/
def C7list : List (D ℚ) :=
  D.nan :: (List.replicate 26 (D.fin (-1:ℚ)) ++ [D.fin 0])

/-- C7 counterexample: on `C7list` (length 28, quicksort branch since
`27 - 0 > 25`, pivot `0.0` at index 27), the partition phase ends with the
NaN at index 27 inside the right region `[l+1, R] = [27, 27]`, and
`0.0 <= NaN` is false — so the claim's "every element in `[l+1, R]`
greater than or equal to the pivot" is false as stated for arbitrary
double arrays. -/
theorem C7_partition_counterexample :
    getI C7list 27 = some (D.fin 0) ∧
    ¬ (∀ (a2 : List (D ℚ)) (l : Int), partitionStep C7list 0 27 = some (a2, l) →
        ∀ i x, l + 1 ≤ i → i ≤ 27 → getI a2 i = some x →
          D.le (D.fin 0) x = true) := by
  constructor
  · decide
  · intro h
    have := h (List.replicate 26 (D.fin (-1:ℚ)) ++ [D.fin 0, D.nan]) 26
      (by decide) 27 D.nan (by decide) (by decide) (by decide)
    exact absurd this (by decide)

theorem C7_partition_witness :
    ∃ p a2 l, getI (List.replicate 28 (D.fin (1:ℚ))) 27 = some p ∧
      partitionStep (List.replicate 28 (D.fin (1:ℚ))) 0 27 = some (a2, l) ∧
      (0:Int) ≤ l ∧ l ≤ 27 ∧ a2 ~ List.replicate 28 (D.fin (1:ℚ)) ∧
      getI a2 l = some p ∧
      (∀ i x, 0 ≤ i → i ≤ l - 1 → getI a2 i = some x → D.le x p = true) ∧
      (∀ i x, l + 1 ≤ i → i ≤ 27 → getI a2 i = some x → D.le p x = true) ∧
      rc_sort (List.replicate 28 (D.fin (1:ℚ))) 0 27 =
        (rc_sort a2 0 (l - 1)).bind (fun a3 => rc_sort a3 (l + 1) 27) :=
  C7_partition (List.replicate 28 (D.fin (1:ℚ))) 0 27
    (rangeOK_of_not_mem (by decide)) (by decide) (by decide) (by decide)

end LSE
